import Mathlib

/-!
# Verification of the zim-explorer graph pipeline (src/explore-zim.py)

Shallow embedding of `explore-zim.py`.  The program builds a directed graph
out of a ZIM archive's entries (articles, redirects, categories) using
networkx, in parallel chunks that are merged with `nx.compose_all`, and then
answers navigation/search queries over read-only views of that graph.

The archive reader (libzim) and the HTML parser (bs4) are external
collaborators: an archive entry is modelled as a record carrying exactly the
data the program reads from those collaborators (path, title, redirect flag,
redirect target path, mimetype, and the list of `href` attribute values of
the anchor elements bs4 extracts from the content).

networkx `DiGraph` is modelled as an association list of nodes (keyed by the
string node identifier, each carrying the attribute dict, here restricted to
the two attribute keys the program ever sets: `title` and `mimetype`) plus a
duplicate-free list of directed edges.  `add_node` updates the attribute
dict of an existing node (dict.update semantics), `add_edge` inserts missing
endpoints as attribute-less nodes, and `compose` lets the right graph's
attributes take precedence, exactly as networkx documents.
-/

/-- `ALL_ARTICLES_GRAPH_CHUNK_SIZE = 500` from the source. -/
def ALL_ARTICLES_GRAPH_CHUNK_SIZE : Nat := 500

/-- `ARTICLES_NODE = "_ARTICLES"`. -/
def ARTICLES_NODE : String := "_ARTICLES"

/-- `CATEGORIES_NODE = "_CATEGORIES"`. -/
def CATEGORIES_NODE : String := "_CATEGORIES"

/-- `SPECIAL_NODES = [ARTICLES_NODE, CATEGORIES_NODE]`. -/
def SPECIAL_NODES : List String := [ARTICLES_NODE, CATEGORIES_NODE]

/-- The node attribute dict.  The program only ever sets the keys
`title` and `mimetype`; `none` models "key absent". -/
structure NodeAttrs where
  title : Option String := none
  mimetype : Option String := none
deriving Repr, DecidableEq

/-- Right-biased merge of one optional attribute value
(`new` wins when present), i.e. Python `dict.update` at one key. -/
def omerge (new old : Option String) : Option String :=
  match new with
  | some x => some x
  | none => old

/-- Python `dict.update`: fields present in `new` overwrite `old`. -/
def NodeAttrs.update (old new : NodeAttrs) : NodeAttrs :=
  { title := omerge new.title old.title, mimetype := omerge new.mimetype old.mimetype }

/-- A networkx `DiGraph`: association list of nodes with attributes plus a
duplicate-free edge list. -/
structure Graph where
  nodes : List (String × NodeAttrs)
  edges : List (String × String)
deriving Repr, DecidableEq

def Graph.empty : Graph := ⟨[], []⟩

/-- The attribute dict of node `p`, `none` when `p` is not a node
(`G.nodes.get(p)` returning `None`). -/
def Graph.attrsOf (g : Graph) (p : String) : Option NodeAttrs :=
  (g.nodes.find? (fun x => decide (x.1 = p))).map (·.2)

/-- `G.has_node(p)`. -/
def Graph.hasNode (g : Graph) (p : String) : Bool :=
  (g.attrsOf p).isSome

/-- `G.has_edge(u, v)`. -/
def Graph.hasEdge (g : Graph) (u v : String) : Bool :=
  decide ((u, v) ∈ g.edges)

/-- Insert-or-update one keyed entry of the node association list
(update-in-place of the first matching key, append when absent). -/
def addNodeList (ns : List (String × NodeAttrs)) (p : String) (a : NodeAttrs) :
    List (String × NodeAttrs) :=
  match ns with
  | [] => [(p, a)]
  | (q, b) :: rest =>
      if q = p then (q, b.update a) :: rest else (q, b) :: addNodeList rest p a

/-- networkx `G.add_node(p, **attrs)`: update the attribute dict when the
node exists, insert it otherwise. -/
def Graph.add_node (g : Graph) (p : String) (a : NodeAttrs) : Graph :=
  { g with nodes := addNodeList g.nodes p a }

/-- networkx `G.add_edge(u, v)`: missing endpoints become attribute-less
nodes; a repeated edge is collapsed (a `DiGraph` has no parallel edges). -/
def Graph.add_edge (g : Graph) (u v : String) : Graph :=
  { nodes := addNodeList (addNodeList g.nodes u {}) v {},
    edges := if (u, v) ∈ g.edges then g.edges else g.edges ++ [(u, v)] }

/-- networkx `nx.compose(g, h)`: union of nodes and edges, attributes from
`h` taking precedence over those from `g`. -/
def Graph.compose (g h : Graph) : Graph :=
  { nodes := h.nodes.foldl (fun ns x => addNodeList ns x.1 x.2) g.nodes,
    edges := h.edges.foldl (fun es e => if e ∈ es then es else es ++ [e]) g.edges }

/-- `nx.compose_all` (`functools.reduce` of `compose`).  networkx raises on
an empty sequence of graphs; the model returns the empty graph there, and
theorems about the build keep a nonemptiness hypothesis instead. -/
def composeAll : List Graph → Graph
  | [] => Graph.empty
  | g :: gs => gs.foldl Graph.compose g

/-- Keys of the node list are duplicate-free (an invariant of every graph
the program constructs). -/
def Graph.WF (g : Graph) : Prop :=
  (g.nodes.map (·.1)).Nodup

/-- Node identifiers of a graph (`G.nodes`). -/
def Graph.nodeIds (g : Graph) : List String :=
  g.nodes.map (·.1)

/-- Successor list of `u` (`G.successors(u)` / `G[u]`), in edge insertion
order. -/
def Graph.succList (g : Graph) (u : String) : List String :=
  (g.edges.filter (fun e => decide (e.1 = u))).map (·.2)

/-- Out-degree of `u`: number of distinct successors. -/
def Graph.outDegree (g : Graph) (u : String) : Nat :=
  (g.succList u).dedup.length

/-- Every edge endpoint is a node (holds for every graph the program
builds; networkx guarantees it). -/
def Graph.edgesClosed (g : Graph) : Prop :=
  ∀ e ∈ g.edges, g.hasNode e.1 = true ∧ g.hasNode e.2 = true

/-! ## Pointwise semantics of the graph operations -/

/-- The result of applying an attribute-dict delta `d` on top of the
current lookup result `o`: `none` deltas are invisible, otherwise the node
exists afterwards with `dict.update` semantics. -/
def combine2 (o d : Option NodeAttrs) : Option NodeAttrs :=
  match d with
  | none => o
  | some b => some ((o.getD {}).update b)

theorem update_empty_left (a : NodeAttrs) : NodeAttrs.update {} a = a := by
  cases a with
  | mk t m => cases t <;> cases m <;> rfl

theorem update_empty_right (a : NodeAttrs) : NodeAttrs.update a {} = a := by
  cases a with
  | mk t m => cases t <;> cases m <;> rfl

theorem omerge_assoc (a b c : Option String) :
    omerge a (omerge b c) = omerge (omerge a b) c := by
  cases a <;> cases b <;> rfl

theorem update_assoc (a b c : NodeAttrs) :
    (a.update b).update c = a.update (b.update c) := by
  simp [NodeAttrs.update, omerge_assoc]

theorem combine2_none_right (o : Option NodeAttrs) : combine2 o none = o := rfl

theorem combine2_none_left (d : Option NodeAttrs) : combine2 none d = d := by
  cases d with
  | none => rfl
  | some b => simp [combine2, update_empty_left]

theorem combine2_some_some (a b : NodeAttrs) :
    combine2 (some a) (some b) = some (a.update b) := rfl

theorem combine2_assoc (x y z : Option NodeAttrs) :
    combine2 (combine2 x y) z = combine2 x (combine2 y z) := by
  cases y with
  | none =>
      cases z <;>
        simp [combine2_none_left, combine2_none_right, combine2, update_empty_left]
  | some b =>
      cases z with
      | none => rfl
      | some c =>
          cases x <;> simp [combine2, update_empty_left, update_assoc]

theorem combine2_isSome_left (x y : Option NodeAttrs) (h : x.isSome = true) :
    (combine2 x y).isSome = true := by
  cases y <;> simp [combine2]
  · exact h

theorem combine2_isSome_right (x y : Option NodeAttrs) (h : y.isSome = true) :
    (combine2 x y).isSome = true := by
  cases y <;> simp_all [combine2]

/-- Lookup in a node association list. -/
def findA (ns : List (String × NodeAttrs)) (q : String) : Option NodeAttrs :=
  (ns.find? (fun x => decide (x.1 = q))).map (·.2)

theorem attrsOf_eq_findA (g : Graph) (q : String) : g.attrsOf q = findA g.nodes q := rfl

theorem findA_cons_eq (r : String) (b : NodeAttrs) (rest : List (String × NodeAttrs))
    (q : String) (h : r = q) : findA ((r, b) :: rest) q = some b := by
  simp [findA, List.find?_cons_of_pos, h]

theorem findA_cons_ne (r : String) (b : NodeAttrs) (rest : List (String × NodeAttrs))
    (q : String) (h : ¬ r = q) : findA ((r, b) :: rest) q = findA rest q := by
  simp only [findA]
  rw [List.find?_cons_of_neg]
  simp [h]

theorem findA_addNodeList (ns : List (String × NodeAttrs)) (p : String)
    (a : NodeAttrs) (q : String) :
    findA (addNodeList ns p a) q
      = combine2 (findA ns q) (if q = p then some a else none) := by
  induction ns with
  | nil =>
      by_cases hqp : q = p
      · subst hqp
        simp [addNodeList, findA, combine2, update_empty_left]
      · have hpq : ¬ p = q := fun h => hqp h.symm
        simp [addNodeList, findA, hqp, hpq, combine2]
  | cons x rest ih =>
      obtain ⟨r, b⟩ := x
      by_cases hrp : r = p
      · subst hrp
        have h1 : addNodeList ((r, b) :: rest) r a = (r, b.update a) :: rest := by
          simp [addNodeList]
        rw [h1]
        by_cases hqr : q = r
        · subst hqr
          rw [findA_cons_eq _ _ _ _ rfl, findA_cons_eq _ _ _ _ rfl]
          simp [combine2]
        · have hrq : ¬ r = q := fun h => hqr h.symm
          rw [findA_cons_ne _ _ _ _ hrq, findA_cons_ne _ _ _ _ hrq]
          simp [hqr, combine2_none_right]
      · have h1 : addNodeList ((r, b) :: rest) p a = (r, b) :: addNodeList rest p a := by
          simp [addNodeList, hrp]
        rw [h1]
        by_cases hqr : q = r
        · subst hqr
          rw [findA_cons_eq _ _ _ _ rfl, findA_cons_eq _ _ _ _ rfl]
          simp [hrp, combine2_none_right]
        · have hrq : ¬ r = q := fun h => hqr h.symm
          rw [findA_cons_ne _ _ _ _ hrq, findA_cons_ne _ _ _ _ hrq]
          exact ih

theorem attrsOf_add_node (g : Graph) (p : String) (a : NodeAttrs) (q : String) :
    (g.add_node p a).attrsOf q
      = combine2 (g.attrsOf q) (if q = p then some a else none) := by
  simpa [Graph.add_node, attrsOf_eq_findA] using findA_addNodeList g.nodes p a q

theorem attrsOf_add_edge (g : Graph) (u v : String) (q : String) :
    (g.add_edge u v).attrsOf q
      = combine2 (combine2 (g.attrsOf q) (if q = u then some {} else none))
          (if q = v then some {} else none) := by
  simp [Graph.add_edge, attrsOf_eq_findA, findA_addNodeList]

theorem edges_add_node (g : Graph) (p : String) (a : NodeAttrs) :
    (g.add_node p a).edges = g.edges := rfl

theorem hasEdge_add_edge (g : Graph) (u v a b : String) :
    (g.add_edge u v).hasEdge a b
      = (g.hasEdge a b || decide (a = u ∧ b = v)) := by
  simp only [Graph.add_edge, Graph.hasEdge]
  by_cases hmem : (u, v) ∈ g.edges
  · by_cases hab : (a, b) ∈ g.edges
    · simp [hmem, hab]
    · simp only [hmem, if_pos, hab]
      by_cases h2 : a = u ∧ b = v
      · obtain ⟨h2a, h2b⟩ := h2
        subst h2a; subst h2b
        simp_all
      · simp [hab, h2]
  · by_cases hab : (a, b) ∈ g.edges
    · simp [hmem, hab]
    · simp only [hmem, if_neg, not_false_iff]
      by_cases h2 : a = u ∧ b = v
      · obtain ⟨h2a, h2b⟩ := h2
        subst h2a; subst h2b
        simp
      · have : ¬ ((a, b) ∈ g.edges ++ [(u, v)]) := by
          intro hin
          rcases List.mem_append.mp hin with h | h
          · exact hab h
          · simp only [List.mem_singleton, Prod.mk.injEq] at h
            exact h2 h
        simp [this, hab, h2]

theorem hasEdge_add_node (g : Graph) (p : String) (a : NodeAttrs) (u v : String) :
    (g.add_node p a).hasEdge u v = g.hasEdge u v := rfl

/-! ## URL handling (`urllib.parse.urlsplit` and `str.lstrip`)

`urlsplit` is the Python standard library's generic URL splitter.  The model
follows CPython's algorithm: optional scheme (a leading run of
letters/digits/`+`/`-`/`.` starting with a letter, up to the first `:`),
then a netloc when the remainder starts with `//` (up to the next `/`, `?`
or `#`), then the fragment is split off at the first `#` and the query at
the first `?`.  Control-character stripping and the bracketed-IPv6
validation of newer CPython are not modelled (no claim depends on them),
and `isAlpha` is its ASCII reading. -/

structure SplitResult where
  scheme : String
  netloc : String
  path : String
  query : String
  fragment : String
deriving Repr, DecidableEq

/-- Split a character list at the first occurrence of `c`; `none` when `c`
does not occur. -/
def splitOnceChar (l : List Char) (c : Char) : List Char × Option (List Char) :=
  match l with
  | [] => ([], none)
  | a :: rest =>
      if a = c then ([], some rest)
      else
        let r := splitOnceChar rest c
        (a :: r.1, r.2)

/-- Characters allowed in a URL scheme. -/
def isSchemeChar (c : Char) : Bool :=
  c.isAlpha || c.isDigit || decide (c = '+') || decide (c = '-') || decide (c = '.')

def isNetlocEnd (c : Char) : Bool :=
  decide (c = '/') || decide (c = '?') || decide (c = '#')

def urlsplitList (l : List Char) : SplitResult :=
  let sch :=
    match splitOnceChar l ':' with
    | (before, some after) =>
        if before ≠ [] ∧ (before.headD ' ').isAlpha ∧ before.all isSchemeChar
        then (before.map Char.toLower, after)
        else ([], l)
    | (_, none) => ([], l)
  let rest := sch.2
  let nl :=
    match rest with
    | '/' :: '/' :: r => (r.takeWhile (fun c => ! isNetlocEnd c), r.dropWhile (fun c => ! isNetlocEnd c))
    | _ => ([], rest)
  let rest2 := nl.2
  let fr :=
    match splitOnceChar rest2 '#' with
    | (before, some after) => (before, after)
    | (before, none) => (before, [])
  let qu :=
    match splitOnceChar fr.1 '?' with
    | (before, some after) => (before, after)
    | (before, none) => (before, [])
  ⟨⟨sch.1⟩, ⟨nl.1⟩, ⟨qu.1⟩, ⟨qu.2⟩, ⟨fr.2⟩⟩

def urlsplit (url : String) : SplitResult :=
  urlsplitList url.data

/-- Python `str.lstrip(chars)`: drop every leading character that occurs in
`chars`. -/
def pyLstrip (s : String) (chars : List Char) : String :=
  ⟨s.data.dropWhile (fun c => decide (c ∈ chars))⟩

/-- Prefix test on strings (Python `str.startswith`). -/
def strStartsWith (s pre : String) : Bool :=
  pre.data.isPrefixOf s.data

/-! ## Archive entries and the entry classifier -/

/-- One archive entry, carrying exactly what `add_zim_entry_to_graph` reads
from the libzim/bs4 collaborators: `entry.path`, `entry.title`,
`entry.is_redirect`, `entry.get_redirect_entry().path`,
`entry.get_item().mimetype`, and the list of `href` attribute values of the
anchor elements bs4 finds in the item's content (in document order;
anchors without an `href` are already excluded, as the source's
`has_attr("href")` check does). -/
structure ZimEntry where
  path : String
  title : String
  is_redirect : Bool
  redirect_path : String
  mimetype : String
  hrefs : List String
deriving Repr, DecidableEq

/-- The body of the classifier's link loop for one `href` value:
`url = link_elem['href'].lstrip("./")`, then `urlsplit(url)`; a nonempty
`netloc` means an external link (ignored), otherwise an edge to the raw
`url` string is added when the split's `path` component is nonempty. -/
def addLinkEdge (g : Graph) (path href : String) : Graph :=
  let url := pyLstrip href ['.', '/']
  let sr := urlsplit url
  if sr.netloc ≠ "" then g
  else if sr.path ≠ "" then g.add_edge path url
  else g

/-- The target, if any, that one `href` value contributes an edge to. -/
def hrefTarget (href : String) : Option String :=
  let url := pyLstrip href ['.', '/']
  let sr := urlsplit url
  if sr.netloc ≠ "" then none
  else if sr.path ≠ "" then some url
  else none

/-- The `add_zim_entry_to_graph(graph, entry)` function: redirects add one
node (with `title`) and one edge to the redirect target; non-HTML items add
nothing; HTML items add a node with `title` and `mimetype`, a membership
edge from `_ARTICLES`, a membership edge from `_CATEGORIES` when the path
starts with `"Category:"`, and one edge per retained anchor `href`. -/
def add_zim_entry_to_graph (graph : Graph) (entry : ZimEntry) : Graph :=
  if entry.is_redirect then
    (graph.add_node entry.path ⟨some entry.title, none⟩).add_edge
      entry.path entry.redirect_path
  else if entry.mimetype ≠ "text/html" then graph
  else
    let g1 := graph.add_node entry.path ⟨some entry.title, some entry.mimetype⟩
    let g2 := g1.add_edge ARTICLES_NODE entry.path
    let g3 :=
      if strStartsWith entry.path "Category:" then
        g2.add_edge CATEGORIES_NODE entry.path
      else g2
    entry.hrefs.foldl (fun g href => addLinkEdge g entry.path href) g3

/-- The link targets an entry's anchor list contributes (`none` results of
`hrefTarget` dropped, order preserved). -/
def entryLinkTargets (e : ZimEntry) : List String :=
  e.hrefs.filterMap hrefTarget

/-- The edges one entry contributes to the graph accumulator. -/
def entryEdges (e : ZimEntry) : List (String × String) :=
  if e.is_redirect then [(e.path, e.redirect_path)]
  else if e.mimetype ≠ "text/html" then []
  else
    (ARTICLES_NODE, e.path) ::
      ((if strStartsWith e.path "Category:" then [(CATEGORIES_NODE, e.path)] else []) ++
        (entryLinkTargets e).map (fun t => (e.path, t)))

/-- The attribute-dict delta one entry contributes at node identifier `q`:
`some` full attributes at its own path, a bare (attribute-less) node at
every other edge endpoint it touches, `none` elsewhere. -/
def entryAttrDelta (e : ZimEntry) (q : String) : Option NodeAttrs :=
  if e.is_redirect then
    if q = e.path then some ⟨some e.title, none⟩
    else if q = e.redirect_path then some {} else none
  else if e.mimetype ≠ "text/html" then none
  else if q = e.path then some ⟨some e.title, some e.mimetype⟩
  else if q = ARTICLES_NODE ∨ (q = CATEGORIES_NODE ∧ strStartsWith e.path "Category:" = true)
      ∨ q ∈ entryLinkTargets e then some {}
  else none

/-! ## Pointwise characterization of the classifier -/

theorem combine2_some_empty (a : NodeAttrs) : combine2 (some a) (some {}) = some a := by
  simp [combine2, update_empty_right]

theorem combine2_some_ite_empty (x : NodeAttrs) (c : Prop) [Decidable c] :
    combine2 (some x) (if c then some ({} : NodeAttrs) else none) = some x := by
  split
  · exact combine2_some_empty x
  · rfl

theorem addLinkEdge_none (g : Graph) (p href : String) (h : hrefTarget href = none) :
    addLinkEdge g p href = g := by
  simp only [addLinkEdge, hrefTarget] at *
  by_cases h1 : (urlsplit (pyLstrip href ['.', '/'])).netloc ≠ ""
  · simp [h1]
  · by_cases h2 : (urlsplit (pyLstrip href ['.', '/'])).path ≠ "" <;> simp_all

theorem addLinkEdge_some (g : Graph) (p href url : String)
    (h : hrefTarget href = some url) : addLinkEdge g p href = g.add_edge p url := by
  simp only [addLinkEdge, hrefTarget] at *
  by_cases h1 : (urlsplit (pyLstrip href ['.', '/'])).netloc ≠ ""
  · simp [h1] at h
  · by_cases h2 : (urlsplit (pyLstrip href ['.', '/'])).path ≠ "" <;> simp_all

theorem linkFold_attrs (hrefs : List String) (p : String) (g : Graph) (q : String)
    (hp : (g.attrsOf p).isSome = true) :
    (hrefs.foldl (fun g href => addLinkEdge g p href) g).attrsOf q
      = combine2 (g.attrsOf q)
          (if q ∈ hrefs.filterMap hrefTarget then some {} else none) := by
  induction hrefs generalizing g with
  | nil => simp [combine2_none_right]
  | cons href rest ih =>
      cases h : hrefTarget href with
      | none =>
          rw [List.foldl_cons, addLinkEdge_none g p href h]
          rw [List.filterMap_cons_none h]
          exact ih g hp
      | some url =>
          rw [List.foldl_cons, addLinkEdge_some g p href url h]
          have hp2 : ((g.add_edge p url).attrsOf p).isSome = true := by
            rw [attrsOf_add_edge]
            exact combine2_isSome_left _ _ (combine2_isSome_left _ _ hp)
          rw [ih (g.add_edge p url) hp2, attrsOf_add_edge,
            List.filterMap_cons_some h]
          obtain ⟨A, hA⟩ := Option.isSome_iff_exists.mp hp
          by_cases hqp : q = p
          · subst hqp
            rw [hA]
            simp only [if_pos rfl, combine2_some_ite_empty]
          · simp only [hqp, if_neg, not_false_iff, combine2_none_right]
            by_cases hqu : q = url
            · subst hqu
              by_cases hqr : q ∈ rest.filterMap hrefTarget <;>
                simp [hqr, combine2_assoc, combine2, update_empty_right,
                  List.mem_cons, combine2_none_right]
            · have : (q ∈ url :: rest.filterMap hrefTarget) ↔ q ∈ rest.filterMap hrefTarget := by
                simp [List.mem_cons, hqu]
              by_cases hqr : q ∈ rest.filterMap hrefTarget <;>
                simp [hqu, hqr, this, combine2_none_right]

theorem linkFold_edges (hrefs : List String) (p : String) (g : Graph) (u v : String) :
    (hrefs.foldl (fun g href => addLinkEdge g p href) g).hasEdge u v
      = (g.hasEdge u v ||
          decide ((u, v) ∈ (hrefs.filterMap hrefTarget).map (fun t => (p, t)))) := by
  induction hrefs generalizing g with
  | nil => simp
  | cons href rest ih =>
      cases h : hrefTarget href with
      | none =>
          rw [List.foldl_cons, addLinkEdge_none g p href h, List.filterMap_cons_none h]
          exact ih g
      | some url =>
          rw [List.foldl_cons, addLinkEdge_some g p href url h,
            List.filterMap_cons_some h, ih, hasEdge_add_edge]
          simp only [List.map_cons, List.mem_cons, Bool.decide_or, Prod.mk.injEq, Bool.decide_and]
          cases g.hasEdge u v <;> cases hu : decide (u = p) <;>
            cases hv : decide (v = url) <;> simp_all

theorem step_attrs (g : Graph) (e : ZimEntry) (q : String) :
    (add_zim_entry_to_graph g e).attrsOf q
      = combine2 (g.attrsOf q) (entryAttrDelta e q) := by
  by_cases hr : e.is_redirect
  · simp only [add_zim_entry_to_graph, hr, if_pos, entryAttrDelta]
    rw [attrsOf_add_edge, attrsOf_add_node]
    simp only [combine2_assoc]
    congr 1
    by_cases hqp : q = e.path
    · subst hqp
      by_cases hpr : e.path = e.redirect_path
      · simp [← hpr, combine2, NodeAttrs.update, omerge]
      · simp [hpr, combine2, NodeAttrs.update, omerge]
    · by_cases hqr : q = e.redirect_path
      · subst hqr
        simp [hqp, combine2, combine2_none_left, combine2_none_right,
          NodeAttrs.update, omerge]
      · simp [hqp, hqr, combine2_none_left, combine2_none_right]
  · by_cases hm : e.mimetype ≠ "text/html"
    · simp [add_zim_entry_to_graph, hr, hm, entryAttrDelta, combine2_none_right]
    · simp only [add_zim_entry_to_graph, entryAttrDelta]
      rw [if_neg hr, if_neg hr, if_neg hm, if_neg hm]
      have hp1 : ((g.add_node e.path ⟨some e.title, some e.mimetype⟩).attrsOf e.path).isSome
          = true := by
        rw [attrsOf_add_node]
        simp [combine2]
      by_cases hcat : strStartsWith e.path "Category:" = true
      · rw [if_pos hcat]
        rw [linkFold_attrs _ _ _ _ (by
          rw [attrsOf_add_edge, attrsOf_add_edge]
          exact combine2_isSome_left _ _ (combine2_isSome_left _ _
            (combine2_isSome_left _ _ (combine2_isSome_left _ _ hp1))))]
        rw [attrsOf_add_edge, attrsOf_add_edge, attrsOf_add_node]
        simp only [combine2_assoc]
        congr 1
        simp only [entryLinkTargets]
        split_ifs <;> (try simp_all [combine2, NodeAttrs.update, omerge]) <;> tauto
      · rw [if_neg hcat]
        rw [linkFold_attrs _ _ _ _ (by
          rw [attrsOf_add_edge]
          exact combine2_isSome_left _ _ (combine2_isSome_left _ _ hp1))]
        rw [attrsOf_add_edge, attrsOf_add_node]
        simp only [combine2_assoc]
        congr 1
        simp only [entryLinkTargets]
        split_ifs <;> (try simp_all [combine2, NodeAttrs.update, omerge]) <;> tauto

theorem step_edges (g : Graph) (e : ZimEntry) (u v : String) :
    (add_zim_entry_to_graph g e).hasEdge u v
      = (g.hasEdge u v || decide ((u, v) ∈ entryEdges e)) := by
  by_cases hr : e.is_redirect
  · simp only [add_zim_entry_to_graph, hr, if_pos, entryEdges]
    rw [hasEdge_add_edge, hasEdge_add_node]
    simp [Prod.ext_iff]
  · by_cases hm : e.mimetype ≠ "text/html"
    · simp [add_zim_entry_to_graph, hr, hm, entryEdges]
    · simp only [add_zim_entry_to_graph, entryEdges]
      simp only [if_neg hr, if_neg hm]
      by_cases hcat : strStartsWith e.path "Category:" = true
      · simp only [if_pos hcat]
        rw [linkFold_edges, hasEdge_add_edge, hasEdge_add_edge, hasEdge_add_node]
        simp only [List.mem_cons, List.mem_append, Bool.decide_or, List.mem_singleton,
          Prod.mk.injEq, Bool.decide_and]
        cases g.hasEdge u v <;> cases h1 : decide (u = ARTICLES_NODE) <;>
          cases h2 : decide (v = e.path) <;> cases h3 : decide (u = CATEGORIES_NODE) <;>
          simp_all [Bool.or_assoc, Bool.or_comm, Bool.or_left_comm,
            entryLinkTargets, List.mem_filterMap]
      · simp only [if_neg hcat]
        rw [linkFold_edges, hasEdge_add_edge, hasEdge_add_node]
        simp only [List.mem_cons, List.mem_append, Bool.decide_or, List.mem_singleton,
          Prod.mk.injEq, Bool.decide_and, List.not_mem_nil, or_false, false_or]
        cases g.hasEdge u v <;> cases h1 : decide (u = ARTICLES_NODE) <;>
          cases h2 : decide (v = e.path) <;>
          simp_all [Bool.or_assoc, Bool.or_comm, Bool.or_left_comm,
            entryLinkTargets, List.mem_filterMap]

/-! ## Building graphs from entry lists -/

/-- Accumulated attribute delta of a list of entries at node `q` (later
entries override earlier ones, `dict.update` style). -/
def listDelta (l : List ZimEntry) (q : String) : Option NodeAttrs :=
  l.foldl (fun acc e => combine2 acc (entryAttrDelta e q)) none

theorem update_self (a : NodeAttrs) : a.update a = a := by
  cases a with
  | mk t m => cases t <;> cases m <;> rfl

theorem foldl_combine2_shift {α : Type} (f : α → Option NodeAttrs) (l : List α)
    (z : Option NodeAttrs) :
    l.foldl (fun acc x => combine2 acc (f x)) z
      = combine2 z (l.foldl (fun acc x => combine2 acc (f x)) none) := by
  induction l generalizing z with
  | nil => simp [combine2_none_right]
  | cons x t ih =>
      rw [List.foldl_cons, List.foldl_cons, ih (combine2 z (f x)),
        ih (combine2 none (f x)), combine2_none_left, combine2_assoc]

theorem build_attrs (l : List ZimEntry) (g : Graph) (q : String) :
    ((l.foldl add_zim_entry_to_graph g).attrsOf q)
      = combine2 (g.attrsOf q) (listDelta l q) := by
  induction l generalizing g with
  | nil => simp [listDelta, combine2_none_right]
  | cons e t ih =>
      rw [List.foldl_cons, ih, step_attrs]
      show _ = combine2 (g.attrsOf q)
        (t.foldl (fun acc x => combine2 acc (entryAttrDelta x q))
          (combine2 none (entryAttrDelta e q)))
      rw [foldl_combine2_shift, combine2_none_left, ← combine2_assoc]
      rfl

theorem build_edges (l : List ZimEntry) (g : Graph) (u v : String) :
    ((l.foldl add_zim_entry_to_graph g).hasEdge u v)
      = (g.hasEdge u v || l.any (fun e => decide ((u, v) ∈ entryEdges e))) := by
  induction l generalizing g with
  | nil => simp
  | cons e t ih =>
      rw [List.foldl_cons, ih, step_edges, List.any_cons, ← Bool.or_assoc]

/-- The graph every chunk worker starts from: an empty `DiGraph` with the
two sentinel nodes added (`graph.add_node(ARTICLES_NODE)` and
`graph.add_node(CATEGORIES_NODE)` with no attributes). -/
def baseGraph : Graph :=
  (Graph.empty.add_node ARTICLES_NODE {}).add_node CATEGORIES_NODE {}

/-- `zim_entries_to_graph(zim_path, entry_ids)`: open an archive handle,
start from the sentinel base graph and classify each non-`None` entry
identifier in order.  The `zim._get_entry_by_id` lookup is abstracted by
passing the (optional, `None`-padded) entries themselves. -/
def zim_entries_to_graph (entry_opts : List (Option ZimEntry)) : Graph :=
  (entry_opts.filterMap id).foldl add_zim_entry_to_graph baseGraph

theorem attrsOf_baseGraph (q : String) :
    baseGraph.attrsOf q
      = if q = ARTICLES_NODE ∨ q = CATEGORIES_NODE then some {} else none := by
  rw [baseGraph, attrsOf_add_node, attrsOf_add_node]
  have hempty : Graph.empty.attrsOf q = none := rfl
  rw [hempty, combine2_none_left]
  have hAC : ¬ (ARTICLES_NODE = CATEGORIES_NODE) := by decide
  have hCA : ¬ (CATEGORIES_NODE = ARTICLES_NODE) := by decide
  by_cases h1 : q = ARTICLES_NODE <;> by_cases h2 : q = CATEGORIES_NODE <;>
    simp [h1, h2, hAC, hCA, combine2, update_empty_right, NodeAttrs.update, omerge]

theorem hasEdge_baseGraph (u v : String) : baseGraph.hasEdge u v = false := by
  simp [baseGraph, Graph.hasEdge, Graph.add_node, Graph.empty]

theorem chunk_attrs (ch : List (Option ZimEntry)) (q : String) :
    (zim_entries_to_graph ch).attrsOf q
      = combine2 (baseGraph.attrsOf q) (listDelta (ch.filterMap id) q) :=
  build_attrs _ _ _

theorem chunk_edges (ch : List (Option ZimEntry)) (u v : String) :
    (zim_entries_to_graph ch).hasEdge u v
      = (ch.filterMap id).any (fun e => decide ((u, v) ∈ entryEdges e)) := by
  rw [zim_entries_to_graph, build_edges, hasEdge_baseGraph, Bool.false_or]

/-! ## Chunking (`grouper` with `incomplete='fill'`, `fillvalue=None`) -/

/-- Structural implementation of the itertools-recipe `grouper` used by the
source (`zip_longest` over `n` copies of one iterator): consecutive chunks
of exactly `n` elements, the last one padded with `none`.  Faithful to the
Python original for every `n ≥ 1` (the source always passes 500). -/
def grouperAux (n : Nat) : List α → List (Option α) → List (List (Option α))
  | [], acc =>
      if acc.isEmpty then [] else [acc ++ List.replicate (n - acc.length) none]
  | a :: rest, acc =>
      if acc.length + 1 = n then (acc ++ [some a]) :: grouperAux n rest []
      else grouperAux n rest (acc ++ [some a])

def grouper (l : List α) (n : Nat) : List (List (Option α)) :=
  grouperAux n l []

theorem filterMap_id_replicate_none (k : Nat) :
    (List.replicate k (none : Option α)).filterMap id = [] := by
  induction k with
  | zero => rfl
  | succ m ih => simpa [List.replicate_succ] using ih

theorem grouperAux_flatten (n : Nat) (l : List α) (acc : List (Option α)) :
    ((grouperAux n l acc).map (fun c => c.filterMap id)).flatten
      = acc.filterMap id ++ l := by
  induction l generalizing acc with
  | nil =>
      by_cases h : acc.isEmpty
      · have : acc = [] := List.isEmpty_iff.mp h
        simp [grouperAux, h, this]
      · simp [grouperAux, h, filterMap_id_replicate_none]
  | cons a rest ih =>
      by_cases h : acc.length + 1 = n
      · simp [grouperAux, h, ih]
      · simp [grouperAux, h, ih]

theorem grouper_flatten (l : List α) (n : Nat) :
    ((grouper l n).map (fun c => c.filterMap id)).flatten = l := by
  simpa using grouperAux_flatten n l []

theorem grouperAux_ne_nil (n : Nat) (l : List α) (acc : List (Option α))
    (h : l ≠ [] ∨ acc ≠ []) : grouperAux n l acc ≠ [] := by
  induction l generalizing acc with
  | nil =>
      rcases h with h | h
      · exact absurd rfl h
      · have : ¬ acc.isEmpty = true := by simpa [List.isEmpty_iff] using h
        simp [grouperAux, this]
  | cons a rest ih =>
      by_cases hc : acc.length + 1 = n
      · simp [grouperAux, hc]
      · simp only [grouperAux, hc, if_neg, not_false_iff]
        exact ih _ (Or.inr (by simp))

/-! ## The graph builder (`__build_zim_graph`) -/

/-- The list of partial graphs the worker pool produces: one
`zim_entries_to_graph` result per `grouper` chunk of the archive's entry
range.  Entry identifiers `range(zim.all_entry_count)` are identified with
the archive's entry list. -/
def buildChunks (arch : List ZimEntry) (c : Nat) : List Graph :=
  (grouper arch c).map zim_entries_to_graph

/-- Classifying all entries sequentially into one accumulator (the
single-chunk reference the spec compares the parallel build against). -/
def seqGraph (arch : List ZimEntry) : Graph :=
  zim_entries_to_graph (arch.map some)

theorem seqGraph_attrs (arch : List ZimEntry) (q : String) :
    (seqGraph arch).attrsOf q
      = combine2 (baseGraph.attrsOf q) (listDelta arch q) := by
  rw [seqGraph, chunk_attrs]
  simp

theorem seqGraph_edges (arch : List ZimEntry) (u v : String) :
    (seqGraph arch).hasEdge u v
      = arch.any (fun e => decide ((u, v) ∈ entryEdges e)) := by
  rw [seqGraph, chunk_edges]
  simp

/-! ## Well-formedness (duplicate-free node keys) and `compose` semantics -/

theorem keys_addNodeList (ns : List (String × NodeAttrs)) (p : String) (a : NodeAttrs) :
    (addNodeList ns p a).map (·.1)
      = if p ∈ ns.map (·.1) then ns.map (·.1) else ns.map (·.1) ++ [p] := by
  induction ns with
  | nil => simp [addNodeList]
  | cons x rest ih =>
      obtain ⟨r, b⟩ := x
      by_cases hrp : r = p
      · simp [addNodeList, hrp]
      · have hpr : ¬ p = r := fun h => hrp h.symm
        simp only [addNodeList, hrp, if_neg, not_false_iff, List.map_cons, List.mem_cons]
        rw [ih]
        by_cases hmem : p ∈ rest.map (·.1) <;> simp [hmem, hpr]

theorem WF_addNodeList (ns : List (String × NodeAttrs)) (p : String) (a : NodeAttrs)
    (h : (ns.map (·.1)).Nodup) : ((addNodeList ns p a).map (·.1)).Nodup := by
  rw [keys_addNodeList]
  by_cases hmem : p ∈ ns.map (·.1)
  · simpa [hmem] using h
  · simp only [hmem, if_neg, not_false_iff]
    simpa [List.nodup_append, hmem] using h

theorem WF_add_node (g : Graph) (p : String) (a : NodeAttrs) (h : g.WF) :
    (g.add_node p a).WF := WF_addNodeList _ _ _ h

theorem WF_add_edge (g : Graph) (u v : String) (h : g.WF) : (g.add_edge u v).WF :=
  WF_addNodeList _ _ _ (WF_addNodeList _ _ _ h)

theorem WF_addLinkEdge (g : Graph) (p href : String) (h : g.WF) :
    (addLinkEdge g p href).WF := by
  cases htg : hrefTarget href with
  | none => rw [addLinkEdge_none _ _ _ htg]; exact h
  | some url => rw [addLinkEdge_some _ _ _ _ htg]; exact WF_add_edge _ _ _ h

theorem WF_linkFold (hrefs : List String) (p : String) (g : Graph) (h : g.WF) :
    (hrefs.foldl (fun g href => addLinkEdge g p href) g).WF := by
  induction hrefs generalizing g with
  | nil => exact h
  | cons href rest ih => exact ih _ (WF_addLinkEdge _ _ _ h)

theorem WF_step (g : Graph) (e : ZimEntry) (h : g.WF) :
    (add_zim_entry_to_graph g e).WF := by
  rw [add_zim_entry_to_graph]
  split
  · exact WF_add_edge _ _ _ (WF_add_node _ _ _ h)
  · split
    · exact h
    · apply WF_linkFold
      split
      · exact WF_add_edge _ _ _ (WF_add_edge _ _ _ (WF_add_node _ _ _ h))
      · exact WF_add_edge _ _ _ (WF_add_node _ _ _ h)

theorem WF_build (l : List ZimEntry) (g : Graph) (h : g.WF) :
    (l.foldl add_zim_entry_to_graph g).WF := by
  induction l generalizing g with
  | nil => exact h
  | cons e t ih => exact ih _ (WF_step _ _ h)

theorem WF_baseGraph : baseGraph.WF := by
  have : Graph.empty.WF := by simp [Graph.WF, Graph.empty]
  exact WF_add_node _ _ _ (WF_add_node _ _ _ this)

theorem WF_zim_entries_to_graph (ch : List (Option ZimEntry)) :
    (zim_entries_to_graph ch).WF := WF_build _ _ WF_baseGraph

theorem findA_foldl_addNodeList (entries : List (String × NodeAttrs))
    (ns : List (String × NodeAttrs)) (hnd : (entries.map (·.1)).Nodup) (q : String) :
    findA (entries.foldl (fun acc x => addNodeList acc x.1 x.2) ns) q
      = combine2 (findA ns q) (findA entries q) := by
  induction entries generalizing ns with
  | nil => simp [findA, combine2_none_right]
  | cons x rest ih =>
      obtain ⟨p, a⟩ := x
      have hnd2 : (rest.map (·.1)).Nodup := (List.nodup_cons.mp hnd).2
      have hpn : p ∉ rest.map (·.1) := (List.nodup_cons.mp hnd).1
      rw [List.foldl_cons, ih _ hnd2, findA_addNodeList]
      by_cases hqp : q = p
      · subst hqp
        have : findA rest q = none := by
          rw [findA]
          have : rest.find? (fun x => decide (x.1 = q)) = none := by
            rw [List.find?_eq_none]
            intro x hx
            simp only [decide_eq_true_eq]
            intro hq
            exact hpn (hq ▸ List.mem_map_of_mem (·.1) hx)
          rw [this]
          rfl
        rw [this, combine2_none_right, findA_cons_eq _ _ _ _ rfl]
        simp
      · have hpq : ¬ p = q := fun h => hqp h.symm
        rw [findA_cons_ne _ _ _ _ hpq]
        simp [hqp, combine2_none_right, combine2_assoc, combine2_none_left]

theorem attrsOf_compose (g h : Graph) (hWF : h.WF) (q : String) :
    (g.compose h).attrsOf q = combine2 (g.attrsOf q) (h.attrsOf q) := by
  simpa [Graph.compose, attrsOf_eq_findA] using
    findA_foldl_addNodeList h.nodes g.nodes hWF q

theorem mem_foldl_dedup_append (l : List (String × String))
    (es : List (String × String)) (e : String × String) :
    e ∈ l.foldl (fun es x => if x ∈ es then es else es ++ [x]) es
      ↔ e ∈ es ∨ e ∈ l := by
  induction l generalizing es with
  | nil => simp
  | cons x t ih =>
      rw [List.foldl_cons]
      by_cases hx : x ∈ es
      · rw [if_pos hx, ih]
        constructor
        · rintro (h | h)
          · exact Or.inl h
          · exact Or.inr (List.mem_cons_of_mem _ h)
        · rintro (h | h)
          · exact Or.inl h
          · rcases List.mem_cons.mp h with h | h
            · exact Or.inl (h ▸ hx)
            · exact Or.inr h
      · rw [if_neg hx, ih]
        simp only [List.mem_append, List.mem_singleton, List.mem_cons]
        tauto

theorem hasEdge_compose (g h : Graph) (u v : String) :
    (g.compose h).hasEdge u v = (g.hasEdge u v || h.hasEdge u v) := by
  simp only [Graph.compose, Graph.hasEdge]
  rw [Bool.eq_iff_iff]
  simp [mem_foldl_dedup_append]

theorem attrsOf_foldl_compose (rest : List Graph) (g0 : Graph)
    (h : ∀ g ∈ rest, g.WF) (q : String) :
    (rest.foldl Graph.compose g0).attrsOf q
      = rest.foldl (fun acc g => combine2 acc (g.attrsOf q)) (g0.attrsOf q) := by
  induction rest generalizing g0 with
  | nil => rfl
  | cons g t ih =>
      rw [List.foldl_cons, List.foldl_cons,
        ih _ (fun x hx => h x (List.mem_cons_of_mem _ hx)),
        attrsOf_compose _ _ (h g (List.mem_cons_self _ _))]

theorem attrsOf_composeAll (gs : List Graph) (h : ∀ g ∈ gs, g.WF) (q : String) :
    (composeAll gs).attrsOf q
      = gs.foldl (fun acc g => combine2 acc (g.attrsOf q)) none := by
  cases gs with
  | nil => rfl
  | cons g rest =>
      rw [composeAll, attrsOf_foldl_compose _ _
        (fun x hx => h x (List.mem_cons_of_mem _ hx)), List.foldl_cons,
        combine2_none_left]

theorem hasEdge_foldl_compose (rest : List Graph) (g0 : Graph) (u v : String) :
    (rest.foldl Graph.compose g0).hasEdge u v
      = (g0.hasEdge u v || rest.any (fun g => g.hasEdge u v)) := by
  induction rest generalizing g0 with
  | nil => simp
  | cons g t ih =>
      rw [List.foldl_cons, ih, hasEdge_compose, List.any_cons, Bool.or_assoc]

theorem hasEdge_composeAll (gs : List Graph) (u v : String) :
    (composeAll gs).hasEdge u v = gs.any (fun g => g.hasEdge u v) := by
  cases gs with
  | nil => rfl
  | cons g rest =>
      rw [composeAll, hasEdge_foldl_compose, List.any_cons]

/-! ## Order-independence of the merge

At a fixed node identifier `q`, the attribute delta of any chunk is either
"central" (absent or a bare attribute-less node — contributed by edge
endpoints and sentinels) or the full attribute record of the unique archive
entry whose path is `q`.  Folding `combine2` over any arrangement of such
deltas gives the same result, which is why `imap_unordered` completion
order does not matter. -/

/-- A delta that carries no attribute content. -/
def Central (x : Option NodeAttrs) : Prop :=
  x = none ∨ x = some {}

instance (x : Option NodeAttrs) : Decidable (Central x) := by
  unfold Central
  infer_instance

theorem combine2_some_central (a : NodeAttrs) (c : Option NodeAttrs) (h : Central c) :
    combine2 (some a) c = some a := by
  rcases h with h | h <;> subst h
  · rfl
  · exact combine2_some_empty a

theorem combine2_central_some (c : Option NodeAttrs) (a : NodeAttrs) (h : Central c) :
    combine2 c (some a) = some a := by
  rcases h with h | h <;> subst h <;> simp [combine2, update_empty_left]

theorem combine2_central_central (c d : Option NodeAttrs) (hc : Central c)
    (hd : Central d) : Central (combine2 c d) := by
  rcases hc with hc | hc <;> rcases hd with hd | hd <;> subst hc <;> subst hd <;>
    simp [Central, combine2, update_empty_left]

theorem combine2_central_empty_iff (c d : Option NodeAttrs) (hc : Central c)
    (hd : Central d) :
    (combine2 c d = some {}) ↔ (c = some {} ∨ d = some {}) := by
  rcases hc with hc | hc <;> rcases hd with hd | hd <;> subst hc <;> subst hd <;>
    simp [combine2, update_empty_left]

/-- Folding `combine2` over deltas that are each either the fixed value
`some a` or central yields `some a` as soon as `some a` occurs (or the
accumulator already is `some a`) — independent of arrangement. -/
theorem fold_combine2_dominant {α : Type} (f : α → Option NodeAttrs) (a : NodeAttrs)
    (l : List α) (z : Option NodeAttrs)
    (hall : ∀ x ∈ l, f x = some a ∨ Central (f x))
    (hz : z = some a ∨ (Central z ∧ ∃ x ∈ l, f x = some a)) :
    l.foldl (fun acc x => combine2 acc (f x)) z = some a := by
  induction l generalizing z with
  | nil =>
      rcases hz with hz | ⟨_, ⟨x, hx, _⟩⟩
      · simpa using hz
      · exact absurd hx (List.not_mem_nil x)
  | cons x t ih =>
      rw [List.foldl_cons]
      refine ih _ (fun y hy => hall y (List.mem_cons_of_mem _ hy)) ?_
      by_cases hfx : f x = some a
      · left
        rw [hfx]
        rcases hz with hz | ⟨hzc, _⟩
        · subst hz
          simp [combine2, update_self]
        · exact combine2_central_some _ _ hzc
      · have hcx : Central (f x) := by
          rcases hall x (List.mem_cons_self _ _) with h | h
          · exact absurd h hfx
          · exact h
        rcases hz with hz | ⟨hzc, ⟨y, hy, hya⟩⟩
        · subst hz
          left
          exact combine2_some_central _ _ hcx
        · right
          refine ⟨combine2_central_central _ _ hzc hcx, ?_⟩
          rcases List.mem_cons.mp hy with h | h
          · exact absurd (h ▸ hya) hfx
          · exact ⟨y, h, hya⟩

/-- Folding `combine2` over central deltas yields `some {}` exactly when a
bare-node delta occurs, `none` otherwise — again independent of
arrangement. -/
theorem fold_combine2_central {α : Type} (f : α → Option NodeAttrs)
    (l : List α) (z : Option NodeAttrs)
    (hall : ∀ x ∈ l, Central (f x)) (hz : Central z) :
    l.foldl (fun acc x => combine2 acc (f x)) z
      = if z = some {} ∨ ∃ x ∈ l, f x = some {} then some ({} : NodeAttrs)
        else none := by
  induction l generalizing z with
  | nil =>
      rcases hz with hz | hz <;> subst hz <;> simp
  | cons x t ih =>
      rw [List.foldl_cons]
      have hcx : Central (f x) := hall x (List.mem_cons_self _ _)
      rw [ih _ (fun y hy => hall y (List.mem_cons_of_mem _ hy))
        (combine2_central_central _ _ hz hcx)]
      have hex : (∃ y ∈ x :: t, f y = some ({} : NodeAttrs))
          ↔ (f x = some {} ∨ ∃ y ∈ t, f y = some {}) := by
        constructor
        · rintro ⟨y, hy, hfy⟩
          rcases List.mem_cons.mp hy with rfl | hy2
          · exact Or.inl hfy
          · exact Or.inr ⟨y, hy2, hfy⟩
        · rintro (h | ⟨y, hy, hfy⟩)
          · exact ⟨x, List.mem_cons_self _ _, h⟩
          · exact ⟨y, List.mem_cons_of_mem _ hy, hfy⟩
      have hcond : (combine2 z (f x) = some ({} : NodeAttrs)
            ∨ ∃ y ∈ t, f y = some ({} : NodeAttrs))
          ↔ (z = some {} ∨ ∃ y ∈ x :: t, f y = some {}) := by
        rw [combine2_central_empty_iff _ _ hz hcx, hex]
        tauto
      by_cases hc : z = some ({} : NodeAttrs) ∨ ∃ y ∈ x :: t, f y = some ({} : NodeAttrs)
      · rw [if_pos (hcond.mpr hc), if_pos hc]
      · rw [if_neg (fun h => hc (hcond.mp h)), if_neg hc]

theorem entryAttrDelta_central (e : ZimEntry) (q : String) (h : ¬ q = e.path) :
    Central (entryAttrDelta e q) := by
  rw [entryAttrDelta]
  split_ifs <;> simp_all [Central]

theorem entryAttrDelta_noncentral_path (e : ZimEntry) (q : String)
    (h : ¬ Central (entryAttrDelta e q)) : q = e.path := by
  by_contra hq
  exact h (entryAttrDelta_central e q hq)

theorem listDelta_central (l : List ZimEntry) (q : String)
    (h : ∀ e ∈ l, Central (entryAttrDelta e q)) : Central (listDelta l q) := by
  rw [listDelta, fold_combine2_central _ _ _ h (Or.inl rfl)]
  split <;> simp [Central]

theorem fold_combine2_central_none {α : Type} (f : α → Option NodeAttrs)
    (l : List α) (hall : ∀ x ∈ l, Central (f x)) :
    l.foldl (fun acc x => combine2 acc (f x)) none
      = if ∃ x ∈ l, f x = some ({} : NodeAttrs) then some ({} : NodeAttrs)
        else none := by
  rw [fold_combine2_central f l none hall (Or.inl rfl)]
  by_cases hex : ∃ x ∈ l, f x = some ({} : NodeAttrs)
  · rw [if_pos (Or.inr hex), if_pos hex]
  · rw [if_neg hex, if_neg (fun h => h.elim (fun h => Option.noConfusion h) hex)]

/-- The per-chunk entry lists (chunks with the `None` padding filtered
out). -/
def chunkEntryLists (arch : List ZimEntry) (c : Nat) : List (List ZimEntry) :=
  (grouper arch c).map (fun ch => ch.filterMap id)

theorem chunkEntryLists_flatten (arch : List ZimEntry) (c : Nat) :
    (chunkEntryLists arch c).flatten = arch :=
  grouper_flatten arch c

theorem mem_of_mem_chunk (arch : List ZimEntry) (c : Nat) (l : List ZimEntry)
    (e : ZimEntry) (hl : l ∈ chunkEntryLists arch c) (he : e ∈ l) : e ∈ arch := by
  rw [← chunkEntryLists_flatten arch c]
  exact List.mem_flatten_of_mem hl he

theorem exists_chunk_of_mem (arch : List ZimEntry) (c : Nat) (e : ZimEntry)
    (he : e ∈ arch) : ∃ l ∈ chunkEntryLists arch c, e ∈ l := by
  rw [← chunkEntryLists_flatten arch c] at he
  rcases List.mem_flatten.mp he with ⟨l, hl, hel⟩
  exact ⟨l, hl, hel⟩

theorem composeAll_attrs_eq_seq (arch : List ZimEntry) (c : Nat) (gs' : List Graph)
    (hperm : gs'.Perm (buildChunks arch c))
    (hnd : (arch.map (fun e => e.path)).Nodup)
    (hne : arch ≠ []) (q : String) :
    (composeAll gs').attrsOf q = (seqGraph arch).attrsOf q := by
  have hbc : ∀ g ∈ buildChunks arch c,
      ∃ ch, ch ∈ grouper arch c ∧ g = zim_entries_to_graph ch := by
    intro g hg
    rcases List.mem_map.mp hg with ⟨ch, hch, rfl⟩
    exact ⟨ch, hch, rfl⟩
  have hwf : ∀ g ∈ gs', g.WF := by
    intro g hg
    rcases hbc g (hperm.mem_iff.mp hg) with ⟨ch, _, rfl⟩
    exact WF_zim_entries_to_graph ch
  rw [attrsOf_composeAll gs' hwf q, seqGraph_attrs]
  have hval : ∀ g ∈ gs', ∃ l, l ∈ chunkEntryLists arch c ∧
      g.attrsOf q = combine2 (baseGraph.attrsOf q) (listDelta l q) := by
    intro g hg
    rcases hbc g (hperm.mem_iff.mp hg) with ⟨ch, hch, rfl⟩
    exact ⟨ch.filterMap id, List.mem_map_of_mem _ hch, chunk_attrs ch q⟩
  by_cases hA : ∃ e ∈ arch, ¬ Central (entryAttrDelta e q)
  · obtain ⟨e0, he0, hnc0⟩ := hA
    obtain ⟨a, ha⟩ : ∃ a, entryAttrDelta e0 q = some a := by
      cases h : entryAttrDelta e0 q
      · exact absurd (Or.inl h) hnc0
      · exact ⟨_, rfl⟩
    have hallE : ∀ e' ∈ arch,
        entryAttrDelta e' q = some a ∨ Central (entryAttrDelta e' q) := by
      intro e' he'
      by_cases hcent : Central (entryAttrDelta e' q)
      · exact Or.inr hcent
      · left
        have hp' : q = e'.path := entryAttrDelta_noncentral_path _ _ hcent
        have hp0 : q = e0.path := entryAttrDelta_noncentral_path _ _ hnc0
        have heq : e' = e0 :=
          List.inj_on_of_nodup_map hnd he' he0 (by rw [← hp', ← hp0])
        rw [heq, ha]
    have hseq : listDelta arch q = some a := by
      rw [listDelta]
      exact fold_combine2_dominant _ a arch none hallE
        (Or.inr ⟨Or.inl rfl, ⟨e0, he0, ha⟩⟩)
    have hchunkDelta : ∀ l ∈ chunkEntryLists arch c,
        listDelta l q = some a ∨ Central (listDelta l q) := by
      intro l hl
      by_cases hex : ∃ e ∈ l, entryAttrDelta e q = some a
      · left
        rw [listDelta]
        exact fold_combine2_dominant _ a l none
          (fun e he => hallE e (mem_of_mem_chunk arch c l e hl he))
          (Or.inr ⟨Or.inl rfl, hex⟩)
      · right
        apply listDelta_central
        intro e he
        rcases hallE e (mem_of_mem_chunk arch c l e hl he) with h | h
        · exact absurd ⟨e, he, h⟩ hex
        · exact h
    have hgs : ∀ g ∈ gs', g.attrsOf q = some a ∨ Central (g.attrsOf q) := by
      intro g hg
      obtain ⟨l, hl, heq⟩ := hval g hg
      rw [heq, attrsOf_baseGraph]
      by_cases hbq : q = ARTICLES_NODE ∨ q = CATEGORIES_NODE
      · rw [if_pos hbq]
        rcases hchunkDelta l hl with h | h
        · rw [h]
          exact Or.inl (combine2_central_some _ _ (Or.inr rfl))
        · exact Or.inr (combine2_central_central _ _ (Or.inr rfl) h)
      · rw [if_neg hbq, combine2_none_left]
        exact hchunkDelta l hl
    have hgex : ∃ g ∈ gs', g.attrsOf q = some a := by
      obtain ⟨l0, hl0, hel0⟩ := exists_chunk_of_mem arch c e0 he0
      rcases List.mem_map.mp hl0 with ⟨ch, hch, rfl⟩
      refine ⟨zim_entries_to_graph ch,
        hperm.mem_iff.mpr (List.mem_map_of_mem _ hch), ?_⟩
      rw [chunk_attrs, attrsOf_baseGraph]
      have hld : listDelta (ch.filterMap id) q = some a := by
        rw [listDelta]
        exact fold_combine2_dominant _ a _ none
          (fun e he => hallE e (mem_of_mem_chunk arch c _ e hl0 he))
          (Or.inr ⟨Or.inl rfl, ⟨e0, hel0, ha⟩⟩)
      rw [hld]
      by_cases hbq : q = ARTICLES_NODE ∨ q = CATEGORIES_NODE
      · rw [if_pos hbq]
        exact combine2_central_some _ _ (Or.inr rfl)
      · rw [if_neg hbq, combine2_none_left]
    have hL : gs'.foldl (fun acc g => combine2 acc (g.attrsOf q)) none = some a :=
      fold_combine2_dominant (fun g => g.attrsOf q) a gs' none hgs
        (Or.inr ⟨Or.inl rfl, hgex⟩)
    rw [hL, hseq, attrsOf_baseGraph]
    by_cases hbq : q = ARTICLES_NODE ∨ q = CATEGORIES_NODE
    · rw [if_pos hbq]
      exact (combine2_central_some _ _ (Or.inr rfl)).symm
    · rw [if_neg hbq]
      exact (combine2_none_left _).symm
  · have hAc : ∀ e ∈ arch, Central (entryAttrDelta e q) := by
      intro e he
      by_contra hcent
      exact hA ⟨e, he, hcent⟩
    have hchc : ∀ l ∈ chunkEntryLists arch c, Central (listDelta l q) := fun l hl =>
      listDelta_central _ _ (fun e he => hAc e (mem_of_mem_chunk arch c l e hl he))
    have hseq : listDelta arch q
        = if ∃ e ∈ arch, entryAttrDelta e q = some ({} : NodeAttrs)
          then some ({} : NodeAttrs) else none := by
      rw [listDelta]
      exact fold_combine2_central_none _ _ hAc
    by_cases hbq : q = ARTICLES_NODE ∨ q = CATEGORIES_NODE
    · have hvs : ∀ g ∈ gs', g.attrsOf q = some ({} : NodeAttrs) := by
        intro g hg
        obtain ⟨l, hl, heq⟩ := hval g hg
        rw [heq, attrsOf_baseGraph, if_pos hbq]
        rcases hchc l hl with h | h <;> rw [h] <;> rfl
      have hchne : buildChunks arch c ≠ [] := by
        rw [buildChunks]
        intro h
        exact grouperAux_ne_nil c arch [] (Or.inl hne) (List.map_eq_nil.mp h)
      have hne' : gs' ≠ [] := by
        intro h
        have hlen := hperm.length_eq
        rw [h] at hlen
        exact hchne (List.length_eq_zero.mp hlen.symm)
      obtain ⟨g0, hg0⟩ := List.exists_mem_of_ne_nil gs' hne'
      have hL : gs'.foldl (fun acc g => combine2 acc (g.attrsOf q)) none
          = some ({} : NodeAttrs) :=
        fold_combine2_dominant (fun g => g.attrsOf q) {} gs' none
          (fun g hg => Or.inl (hvs g hg))
          (Or.inr ⟨Or.inl rfl, ⟨g0, hg0, hvs g0 hg0⟩⟩)
      rw [hL, attrsOf_baseGraph, if_pos hbq]
      rcases listDelta_central arch q hAc with h | h <;> rw [h] <;> rfl
    · have hvv : ∀ g ∈ gs', ∃ l ∈ chunkEntryLists arch c,
          g.attrsOf q = listDelta l q := by
        intro g hg
        obtain ⟨l, hl, heq⟩ := hval g hg
        exact ⟨l, hl, by rw [heq, attrsOf_baseGraph, if_neg hbq, combine2_none_left]⟩
      have hvc : ∀ g ∈ gs', Central (g.attrsOf q) := by
        intro g hg
        obtain ⟨l, hl, heq⟩ := hvv g hg
        rw [heq]
        exact hchc l hl
      have hL := fold_combine2_central_none (fun g => g.attrsOf q) gs' hvc
      rw [hL, attrsOf_baseGraph, if_neg hbq, combine2_none_left, hseq]
      have hiff : (∃ g ∈ gs', g.attrsOf q = some ({} : NodeAttrs))
          ↔ (∃ e ∈ arch, entryAttrDelta e q = some ({} : NodeAttrs)) := by
        constructor
        · rintro ⟨g, hg, hgv⟩
          obtain ⟨l, hl, heq⟩ := hvv g hg
          rw [heq, listDelta, fold_combine2_central_none _ _
            (fun e he => hAc e (mem_of_mem_chunk arch c l e hl he))] at hgv
          by_cases hex2 : ∃ e ∈ l, entryAttrDelta e q = some ({} : NodeAttrs)
          · obtain ⟨e, he, hev⟩ := hex2
            exact ⟨e, mem_of_mem_chunk arch c l e hl he, hev⟩
          · rw [if_neg hex2] at hgv
            exact Option.noConfusion hgv
        · rintro ⟨e, he, hev⟩
          obtain ⟨l, hl, hel⟩ := exists_chunk_of_mem arch c e he
          rcases List.mem_map.mp hl with ⟨ch, hch, rfl⟩
          refine ⟨zim_entries_to_graph ch,
            hperm.mem_iff.mpr (List.mem_map_of_mem _ hch), ?_⟩
          rw [chunk_attrs, attrsOf_baseGraph, if_neg hbq, combine2_none_left,
            listDelta, fold_combine2_central_none _ _
              (fun x hx => hAc x (mem_of_mem_chunk arch c _ x hl hx))]
          rw [if_pos ⟨e, hel, hev⟩]
      by_cases hex : ∃ e ∈ arch, entryAttrDelta e q = some ({} : NodeAttrs)
      · rw [if_pos hex, if_pos (hiff.mpr hex)]
      · rw [if_neg hex, if_neg (fun h => hex (hiff.mp h))]

theorem composeAll_edges_eq_seq (arch : List ZimEntry) (c : Nat) (gs' : List Graph)
    (hperm : gs'.Perm (buildChunks arch c)) (u v : String) :
    (composeAll gs').hasEdge u v = (seqGraph arch).hasEdge u v := by
  rw [hasEdge_composeAll, seqGraph_edges, Bool.eq_iff_iff]
  simp only [List.any_eq_true]
  constructor
  · rintro ⟨g, hg, hgv⟩
    rcases List.mem_map.mp (hperm.mem_iff.mp hg) with ⟨ch, hch, rfl⟩
    rw [chunk_edges] at hgv
    rcases List.any_eq_true.mp hgv with ⟨e, he, hev⟩
    exact ⟨e, mem_of_mem_chunk arch c _ e (List.mem_map_of_mem _ hch) he, hev⟩
  · rintro ⟨e, he, hev⟩
    obtain ⟨l, hl, hel⟩ := exists_chunk_of_mem arch c e he
    rcases List.mem_map.mp hl with ⟨ch, hch, rfl⟩
    refine ⟨zim_entries_to_graph ch,
      hperm.mem_iff.mpr (List.mem_map_of_mem _ hch), ?_⟩
    rw [chunk_edges]
    exact List.any_eq_true.mpr ⟨e, hel, hev⟩

/-- Two graphs with the same node set, the same attributes on every node,
and the same edge set. -/
def Graph.equiv (g h : Graph) : Prop :=
  (∀ q, g.attrsOf q = h.attrsOf q) ∧ (∀ u v, g.hasEdge u v = h.hasEdge u v)

/-! ## Claim C1 -/

/-- C1: for every archive and every valid chunk size, partitioning the
entry range into fixed-size chunks (`grouper`, padded with `None`),
classifying each chunk into a partial graph (`zim_entries_to_graph`) and
merging the partial graphs with `nx.compose_all` in ANY completion order
(any permutation `gs'` of the chunk results, as produced by
`pool.imap_unordered`) yields a graph with the same node set, node
attributes and edge set as classifying all entries sequentially into a
single accumulator.  Entry paths are unique within an archive (spec §3)
and the archive is nonempty (`compose_all` of zero graphs raises). -/
theorem chunked_build_matches_sequential (arch : List ZimEntry) (c : Nat)
    (gs' : List Graph) (hc : 0 < c) (hne : arch ≠ [])
    (hnd : (arch.map (fun e => e.path)).Nodup)
    (hperm : gs'.Perm (buildChunks arch c)) :
    Graph.equiv (composeAll gs') (seqGraph arch) :=
  ⟨fun q => composeAll_attrs_eq_seq arch c gs' hperm hnd hne q,
   fun u v => composeAll_edges_eq_seq arch c gs' hperm u v⟩

def wEntryA : ZimEntry := ⟨"A", "Article A", false, "", "text/html", ["B", "https://x.org/y"]⟩

def wEntryB : ZimEntry := ⟨"B", "Article B", false, "", "text/html", []⟩

def wEntryR : ZimEntry := ⟨"R", "Redirect R", true, "A", "", []⟩

def wArch : List ZimEntry := [wEntryA, wEntryB, wEntryR]

theorem chunked_build_matches_sequential_witness :
    0 < 2 ∧ wArch ≠ [] ∧ (wArch.map (fun e => e.path)).Nodup ∧
      (buildChunks wArch 2).Perm (buildChunks wArch 2) ∧
      Graph.equiv (composeAll (buildChunks wArch 2)) (seqGraph wArch) :=
  ⟨by decide, by decide, by decide, List.Perm.refl _,
    chunked_build_matches_sequential wArch 2 (buildChunks wArch 2)
      (by decide) (by decide) (by decide) (List.Perm.refl _)⟩

/-! ## Claim C2 -/

def selfLinkEntry : ZimEntry := ⟨"A", "Article A", false, "", "text/html", ["A"]⟩

/-- C2 counterexample: an entry whose HTML links to its own path DOES add a
self-edge (`graph.add_edge(entry.path, url)` has no self-link guard), so
the claim "no edge has source equal to target" is false as stated. -/
theorem self_edge_added_counterexample :
    (add_zim_entry_to_graph baseGraph selfLinkEntry).hasEdge "A" "A" = true := by
  decide

/-- C2 (amended): no anchor href with a network-location component ever
produces an edge (the `split_result.netloc` branch discards it); the
self-edge half of the original claim is dropped, since an entry linking to
its own path adds a self-loop. -/
theorem external_href_never_adds_edge (g : Graph) (p href : String)
    (h : (urlsplit (pyLstrip href ['.', '/'])).netloc ≠ "") :
    addLinkEdge g p href = g := by
  rw [addLinkEdge, if_pos h]

theorem external_href_never_adds_edge_witness :
    (urlsplit (pyLstrip "https://example.com/page" ['.', '/'])).netloc ≠ "" ∧
      addLinkEdge baseGraph "A" "https://example.com/page" = baseGraph :=
  ⟨by decide, external_href_never_adds_edge baseGraph "A" _ (by decide)⟩

/-! ## Claim C3 -/

theorem mem_succList (g : Graph) (u v : String) :
    v ∈ g.succList u ↔ g.hasEdge u v = true := by
  simp only [Graph.succList, Graph.hasEdge, List.mem_map, List.mem_filter,
    decide_eq_true_eq]
  constructor
  · rintro ⟨⟨a, b⟩, ⟨hmem, ha⟩, hb⟩
    simp only at ha hb
    subst ha
    subst hb
    exact hmem
  · intro h
    exact ⟨(u, v), ⟨h, rfl⟩, rfl⟩

theorem dedup_of_all_eq {l : List String} {a : String} (hne : l ≠ [])
    (h : ∀ x ∈ l, x = a) : l.dedup = [a] := by
  induction l with
  | nil => exact absurd rfl hne
  | cons x t ih =>
      have hx : x = a := h x (List.mem_cons_self _ _)
      subst hx
      by_cases ht : t = []
      · subst ht
        simp
      · have hxt : x ∈ t := by
          obtain ⟨y, hy⟩ := List.exists_mem_of_ne_nil t ht
          have : y = x := h y (List.mem_cons_of_mem _ hy)
          exact this ▸ hy
        rw [List.dedup_cons_of_mem hxt]
        exact ih ht (fun y hy => h y (List.mem_cons_of_mem _ hy))

theorem outDegree_eq_one (g : Graph) (u r : String)
    (h : ∀ v, v ∈ g.succList u ↔ v = r) : g.outDegree u = 1 := by
  rw [Graph.outDegree, dedup_of_all_eq (l := g.succList u) (a := r)]
  · rfl
  · intro hemp
    have := (h r).mpr rfl
    rw [hemp] at this
    exact List.not_mem_nil r this
  · exact fun x hx => (h x).mp hx

theorem entryEdges_src (e : ZimEntry) (u v : String)
    (h : (u, v) ∈ entryEdges e) :
    u = e.path ∨ u = ARTICLES_NODE ∨ u = CATEGORIES_NODE := by
  rw [entryEdges] at h
  split_ifs at h <;> simp_all [Prod.ext_iff, List.mem_cons, List.mem_append] <;>
    tauto

theorem redirect_entryEdges (e : ZimEntry) (hr : e.is_redirect = true) :
    entryEdges e = [(e.path, e.redirect_path)] := by
  rw [entryEdges, if_pos hr]

/-- C3: every node created from a redirect entry has, in the merged full
graph, exactly the `title` attribute (no `mimetype`), its successor set is
exactly the redirect target's path (so redirects contribute no content-link
edges), and its out-degree is exactly 1. -/
theorem redirect_node_out_degree_one (arch : List ZimEntry) (c : Nat)
    (gs' : List Graph) (hperm : gs'.Perm (buildChunks arch c))
    (hnd : (arch.map (fun e => e.path)).Nodup) (hne : arch ≠ [])
    (hsp : ∀ e ∈ arch, ¬ e.path ∈ SPECIAL_NODES)
    (e : ZimEntry) (he : e ∈ arch) (hr : e.is_redirect = true) :
    (composeAll gs').attrsOf e.path = some ⟨some e.title, none⟩ ∧
    (∀ v, (composeAll gs').hasEdge e.path v = true ↔ v = e.redirect_path) ∧
    (composeAll gs').outDegree e.path = 1 := by
  have hspE := hsp e he
  simp only [SPECIAL_NODES, List.mem_cons, List.not_mem_nil, or_false,
    not_or] at hspE
  obtain ⟨hnA, hnC⟩ := hspE
  have hattr : (composeAll gs').attrsOf e.path = some ⟨some e.title, none⟩ := by
    rw [composeAll_attrs_eq_seq arch c gs' hperm hnd hne, seqGraph_attrs,
      attrsOf_baseGraph, if_neg (by tauto), combine2_none_left, listDelta]
    apply fold_combine2_dominant _ _ arch none
    · intro e' he'
      by_cases hp : e.path = e'.path
      · have : e' = e := List.inj_on_of_nodup_map hnd he' he (hp.symm)
        subst this
        left
        rw [entryAttrDelta, if_pos hr, if_pos rfl]
      · exact Or.inr (entryAttrDelta_central e' e.path hp)
    · refine Or.inr ⟨Or.inl rfl, ⟨e, he, ?_⟩⟩
      rw [entryAttrDelta, if_pos hr, if_pos rfl]
  have hedge : ∀ v, (composeAll gs').hasEdge e.path v = true ↔ v = e.redirect_path := by
    intro v
    rw [composeAll_edges_eq_seq arch c gs' hperm, seqGraph_edges,
      List.any_eq_true]
    constructor
    · rintro ⟨e', he', hev⟩
      simp only [decide_eq_true_eq] at hev
      rcases entryEdges_src e' e.path v hev with hsrc | hsrc | hsrc
      · have : e' = e := List.inj_on_of_nodup_map hnd he' he hsrc.symm
        subst this
        rw [redirect_entryEdges e' hr] at hev
        simp only [List.mem_singleton, Prod.mk.injEq] at hev
        exact hev.2
      · exact absurd hsrc hnA
      · exact absurd hsrc hnC
    · rintro rfl
      refine ⟨e, he, ?_⟩
      simp only [decide_eq_true_eq]
      rw [redirect_entryEdges e hr]
      exact List.mem_singleton.mpr rfl
  refine ⟨hattr, hedge, ?_⟩
  apply outDegree_eq_one _ _ e.redirect_path
  intro v
  rw [mem_succList]
  exact hedge v

theorem redirect_node_out_degree_one_witness :
    (buildChunks wArch 2).Perm (buildChunks wArch 2) ∧ wEntryR ∈ wArch ∧
      wEntryR.is_redirect = true ∧
      ((composeAll (buildChunks wArch 2)).attrsOf wEntryR.path
          = some ⟨some wEntryR.title, none⟩ ∧
        (∀ v, (composeAll (buildChunks wArch 2)).hasEdge wEntryR.path v = true
            ↔ v = wEntryR.redirect_path) ∧
        (composeAll (buildChunks wArch 2)).outDegree wEntryR.path = 1) :=
  ⟨List.Perm.refl _, by decide, by decide,
    redirect_node_out_degree_one wArch 2 (buildChunks wArch 2)
      (List.Perm.refl _) (by decide) (by decide) (by decide)
      wEntryR (by decide) (by decide)⟩

/-! ## Claim C4 -/

theorem mime_combine2 (x y : Option NodeAttrs) :
    (combine2 x y).bind (fun a => a.mimetype)
      = omerge (y.bind (fun a => a.mimetype)) (x.bind (fun a => a.mimetype)) := by
  cases y with
  | none => cases x <;> rfl
  | some b =>
      cases x <;> cases hbm : b.mimetype <;>
        simp [combine2, NodeAttrs.update, omerge, hbm, update_empty_left]

theorem fold_mime (l : List ZimEntry) (q : String) (m : String) :
    ∀ z : Option NodeAttrs,
      (l.foldl (fun acc e => combine2 acc (entryAttrDelta e q)) z).bind
          (fun a => a.mimetype) = some m →
      (∃ e ∈ l, (entryAttrDelta e q).bind (fun a => a.mimetype) = some m)
        ∨ z.bind (fun a => a.mimetype) = some m := by
  induction l with
  | nil =>
      intro z h
      exact Or.inr h
  | cons x t ih =>
      intro z h
      rw [List.foldl_cons] at h
      rcases ih _ h with ⟨e, he, hev⟩ | hz
      · exact Or.inl ⟨e, List.mem_cons_of_mem _ he, hev⟩
      · rw [mime_combine2] at hz
        cases hx : (entryAttrDelta x q).bind (fun a => a.mimetype) with
        | none =>
            rw [hx] at hz
            exact Or.inr hz
        | some m2 =>
            rw [hx] at hz
            simp only [omerge] at hz
            exact Or.inl ⟨x, List.mem_cons_self _ _, by rw [hx, hz]⟩

theorem entryAttrDelta_mime (e : ZimEntry) (q m : String)
    (h : (entryAttrDelta e q).bind (fun a => a.mimetype) = some m) :
    q = e.path ∧ e.is_redirect = false ∧ e.mimetype = "text/html"
      ∧ m = e.mimetype := by
  rw [entryAttrDelta] at h
  split_ifs at h <;> simp_all

theorem seq_mime (arch : List ZimEntry) (p m : String)
    (h : ((seqGraph arch).attrsOf p).bind (fun a => a.mimetype) = some m) :
    ∃ e ∈ arch, e.path = p ∧ e.is_redirect = false
      ∧ e.mimetype = "text/html" ∧ m = e.mimetype := by
  rw [seqGraph_attrs, mime_combine2] at h
  have hbase : (baseGraph.attrsOf p).bind (fun a => a.mimetype) = none := by
    rw [attrsOf_baseGraph]
    split <;> rfl
  rw [hbase] at h
  have h2 : (listDelta arch p).bind (fun a => a.mimetype) = some m := by
    revert h
    cases hld : (listDelta arch p).bind (fun a => a.mimetype) with
    | none =>
        intro h
        simp [omerge] at h
    | some m2 =>
        intro h
        simpa [omerge] using h
  rw [listDelta] at h2
  rcases fold_mime arch p m none h2 with ⟨e, he, hev⟩ | hz
  · obtain ⟨hq, hr, hm, hmm⟩ := entryAttrDelta_mime e p m hev
    exact ⟨e, he, hq.symm, hr, hm, hmm⟩
  · exact Option.noConfusion hz

theorem entryEdges_articles_edge (e : ZimEntry) (hr : e.is_redirect = false)
    (hm : e.mimetype = "text/html") :
    (ARTICLES_NODE, e.path) ∈ entryEdges e := by
  rw [entryEdges, if_neg (by rw [hr]; exact Bool.false_ne_true),
    if_neg (by rw [hm]; exact fun h => h rfl)]
  exact List.mem_cons_self _ _

theorem entryEdges_articles_src (e : ZimEntry) (p : String)
    (hsp : ¬ e.path ∈ SPECIAL_NODES)
    (h : (ARTICLES_NODE, p) ∈ entryEdges e) :
    e.is_redirect = false ∧ e.mimetype = "text/html" ∧ p = e.path := by
  have hAC : ¬ (ARTICLES_NODE = CATEGORIES_NODE) := by decide
  simp only [SPECIAL_NODES, List.mem_cons, List.not_mem_nil, or_false,
    not_or] at hsp
  rw [entryEdges] at h
  split_ifs at h with h1 h2 h3
  · simp only [List.mem_singleton, Prod.mk.injEq] at h
    exact absurd h.1.symm hsp.1
  · exact absurd h (List.not_mem_nil _)
  all_goals
    have hr : e.is_redirect = false := by
      cases hb : e.is_redirect
      · rfl
      · exact absurd hb h1
  all_goals have hm : e.mimetype = "text/html" := not_ne_iff.mp h2
  all_goals refine ⟨hr, hm, ?_⟩
  all_goals rcases List.mem_cons.mp h with hh | hh
  all_goals try (rw [Prod.mk.injEq] at hh; exact hh.2)
  all_goals rcases List.mem_append.mp hh with hh2 | hh2
  all_goals try exact absurd hh2 (List.not_mem_nil _)
  all_goals
    try (simp only [List.mem_singleton, Prod.mk.injEq] at hh2
         exact absurd hh2.1 hAC)
  all_goals rcases List.mem_map.mp hh2 with ⟨t, _, ht⟩
  all_goals rw [Prod.mk.injEq] at ht
  all_goals exact absurd ht.1 hsp.1

theorem entryEdges_categories_edge (e : ZimEntry) (hr : e.is_redirect = false)
    (hm : e.mimetype = "text/html") (hcat : strStartsWith e.path "Category:" = true) :
    (CATEGORIES_NODE, e.path) ∈ entryEdges e := by
  rw [entryEdges, if_neg (by rw [hr]; exact Bool.false_ne_true),
    if_neg (by rw [hm]; exact fun h => h rfl)]
  refine List.mem_cons_of_mem _ (List.mem_append.mpr (Or.inl ?_))
  rw [if_pos hcat]
  exact List.mem_singleton.mpr rfl

/-- C4: in the merged full graph, every node with a `mimetype` attribute
has an incoming edge from the `_ARTICLES` sentinel; every
`"Category:"`-prefixed identifier that is a direct target of `_ARTICLES`
also has an incoming edge from `_CATEGORIES`; and conversely a `mimetype`
attribute is only ever carried by a non-redirect HTML entry's node. -/
theorem mimetype_sentinel_invariant (arch : List ZimEntry) (c : Nat)
    (gs' : List Graph) (hperm : gs'.Perm (buildChunks arch c))
    (hnd : (arch.map (fun e => e.path)).Nodup) (hne : arch ≠ [])
    (hsp : ∀ e ∈ arch, ¬ e.path ∈ SPECIAL_NODES) :
    (∀ p a, (composeAll gs').attrsOf p = some a → a.mimetype.isSome = true →
        (composeAll gs').hasEdge ARTICLES_NODE p = true) ∧
    (∀ p, strStartsWith p "Category:" = true →
        (composeAll gs').hasEdge ARTICLES_NODE p = true →
        (composeAll gs').hasEdge CATEGORIES_NODE p = true) ∧
    (∀ p a, (composeAll gs').attrsOf p = some a → a.mimetype.isSome = true →
        ∃ e ∈ arch, e.path = p ∧ e.is_redirect = false
          ∧ e.mimetype = "text/html") := by
  have hmime : ∀ p a, (composeAll gs').attrsOf p = some a →
      a.mimetype.isSome = true →
      ∃ e ∈ arch, e.path = p ∧ e.is_redirect = false
        ∧ e.mimetype = "text/html" := by
    intro p a hpa hm
    obtain ⟨m, hm2⟩ := Option.isSome_iff_exists.mp hm
    have hbind : ((seqGraph arch).attrsOf p).bind (fun a => a.mimetype) = some m := by
      rw [← composeAll_attrs_eq_seq arch c gs' hperm hnd hne, hpa]
      simpa using hm2
    obtain ⟨e, he, hep, her, hemi, _⟩ := seq_mime arch p m hbind
    exact ⟨e, he, hep, her, hemi⟩
  refine ⟨?_, ?_, hmime⟩
  · intro p a hpa hm
    obtain ⟨e, he, hep, her, hemi⟩ := hmime p a hpa hm
    rw [composeAll_edges_eq_seq arch c gs' hperm, seqGraph_edges,
      List.any_eq_true]
    refine ⟨e, he, ?_⟩
    simp only [decide_eq_true_eq]
    rw [← hep]
    exact entryEdges_articles_edge e her hemi
  · intro p hcat hedge
    rw [composeAll_edges_eq_seq arch c gs' hperm, seqGraph_edges,
      List.any_eq_true] at hedge ⊢
    obtain ⟨e, he, hev⟩ := hedge
    simp only [decide_eq_true_eq] at hev
    obtain ⟨her, hemi, hpe⟩ := entryEdges_articles_src e p (hsp e he) hev
    refine ⟨e, he, ?_⟩
    simp only [decide_eq_true_eq]
    rw [hpe]
    exact entryEdges_categories_edge e her hemi (hpe ▸ hcat)

def wEntryCat : ZimEntry := ⟨"Category:C", "Cat C", false, "", "text/html", ["A"]⟩

def wArch4 : List ZimEntry := [wEntryA, wEntryB, wEntryR, wEntryCat]

theorem mimetype_sentinel_invariant_witness :
    (buildChunks wArch4 2).Perm (buildChunks wArch4 2) ∧
      ((∀ p a, (composeAll (buildChunks wArch4 2)).attrsOf p = some a →
          a.mimetype.isSome = true →
          (composeAll (buildChunks wArch4 2)).hasEdge ARTICLES_NODE p = true) ∧
       (∀ p, strStartsWith p "Category:" = true →
          (composeAll (buildChunks wArch4 2)).hasEdge ARTICLES_NODE p = true →
          (composeAll (buildChunks wArch4 2)).hasEdge CATEGORIES_NODE p = true) ∧
       (∀ p a, (composeAll (buildChunks wArch4 2)).attrsOf p = some a →
          a.mimetype.isSome = true →
          ∃ e ∈ wArch4, e.path = p ∧ e.is_redirect = false
            ∧ e.mimetype = "text/html")) :=
  ⟨List.Perm.refl _,
    mimetype_sentinel_invariant wArch4 2 (buildChunks wArch4 2)
      (List.Perm.refl _) (by decide) (by decide) (by decide)⟩

/-! ## Search resolver (`__zim_search_iter` and `prompt_for_article_id`)

`__zim_search_iter` drives the archive's full-text search: it repeatedly
calls `search.getResults(0, 10)` — note the CONSTANT arguments straight
from the source; the `search_start` variable is incremented but never used
— yields every result of a nonempty page and stops at the first empty
page.  The consumer filters the stream by membership in the search view and
takes at most 10 results lazily (`itertools.islice(filter(...), 10)`).

The paginated facility is modelled by its `getResults` function; the
generator/islice pipeline is modelled by a fuel-indexed loop that mirrors
exactly how many pages the lazy consumer pulls: it stops on an empty page
or as soon as 10 members have been produced, and reports whether it stopped
on its own (`true`) or ran out of fuel with the real loop still running
(`false`), together with the number of `getResults` invocations. -/

def searchCollect (getResults : Nat → Nat → List String)
    (member : String → Bool) :
    Nat → List String → Nat → List String × Nat × Bool
  | 0, acc, calls => (acc, calls, false)
  | Nat.succ fuel, acc, calls =>
      let page := getResults 0 10
      if page.isEmpty then (acc, calls + 1, true)
      else
        let acc2 := (acc ++ page.filter member).take 10
        if 10 ≤ acc2.length then (acc2, calls + 1, true)
        else searchCollect getResults member fuel acc2 (calls + 1)

/-- `prompt_for_article_id`: exact node-identifier match short-circuits
(returning the identifier with the search facility never invoked);
otherwise the bounded, view-filtered candidate list is collected (and the
function returns `None` after displaying it).  Result: (resolved id,
candidate list, number of `getResults` invocations). -/
def prompt_for_article_id (sg : Graph) (getResults : Nat → Nat → List String)
    (fuel : Nat) (input_str : String) :
    Option String × List String × Nat :=
  if sg.hasNode input_str then (some input_str, [], 0)
  else
    let r := searchCollect getResults (fun s => sg.hasNode s) fuel [] 0
    (none, r.1, r.2.1)

/-! ## Claim C5 -/

/-- C5: a query string that is an existing node identifier of the active
search view is returned directly, with zero invocations of the full-text
search facility. -/
theorem exact_match_short_circuit (sg : Graph)
    (getResults : Nat → Nat → List String) (fuel : Nat) (input_str : String)
    (h : sg.hasNode input_str = true) :
    prompt_for_article_id sg getResults fuel input_str
      = (some input_str, [], 0) := by
  rw [prompt_for_article_id, if_pos h]

def wViewGraph : Graph :=
  ((Graph.empty.add_node "r1" {}).add_node "r2" {}).add_node "r3" {}

theorem exact_match_short_circuit_witness :
    wViewGraph.hasNode "r1" = true ∧
      prompt_for_article_id wViewGraph (fun _ _ => ["r2"]) 5 "r1"
        = (some "r1", [], 0) :=
  ⟨by decide, exact_match_short_circuit wViewGraph (fun _ _ => ["r2"]) 5 "r1"
    (by decide)⟩

/-! ## Claims C6 and C7 -/

/-- The one result page of the C6 scenario: 3 hits that are members of the
search view (`r1 r2 r3`) and 7 that are not. -/
def wPage : List String :=
  ["r1", "r2", "r3", "x1", "x2", "x3", "x4", "x5", "x6", "x7"]

/-- C6 (code_bug evidence): because `__zim_search_iter` calls
`search.getResults(0, 10)` with constant arguments on every loop iteration
(`search_start` advances but is never passed), a query yielding one page of
3 view members and 7 non-members does NOT return exactly those 3 hits: the
same page is re-fetched and the resolver returns the 3 members cycled up to
the 10-result cap, after 4 `getResults` invocations. -/
theorem search_candidates_cycled_bug :
    prompt_for_article_id wViewGraph (fun _ _ => wPage) 20 "Query"
      = (none, ["r1", "r2", "r3", "r1", "r2", "r3", "r1", "r2", "r3", "r1"], 4)
    ∧ ["r1", "r2", "r3", "r1", "r2", "r3", "r1", "r2", "r3", "r1"]
      ≠ ["r1", "r2", "r3"] := by
  constructor
  · decide
  · decide

/-- C7 (code_bug evidence): with a nonempty first page containing no view
member, the candidate-list construction never completes: for every amount
of fuel the loop is still running (the generator re-yields the same
nonempty page, the filter passes nothing, and `islice` never fills), so
search resolution does not terminate for every possible page sequence. -/
theorem search_nontermination_bug :
    ∀ fuel calls : Nat,
      (searchCollect (fun _ _ => ["x1"]) (fun s => wViewGraph.hasNode s)
        fuel [] calls).2.2 = false := by
  intro fuel
  induction fuel with
  | zero => intro calls; rfl
  | succ n ih =>
      intro calls
      show (searchCollect (fun _ _ => ["x1"]) (fun s => wViewGraph.hasNode s)
        (Nat.succ n) [] calls).2.2 = false
      rw [searchCollect]
      simp only [List.isEmpty_cons, if_neg]
      have hfilt : List.filter (fun s => wViewGraph.hasNode s) ["x1"] = [] := by
        decide
      rw [show (([] : List String) ++
          List.filter (fun s => wViewGraph.hasNode s) ["x1"]).take 10
          = [] by rw [hfilt]; rfl]
      exact ih (calls + 1)

/-! ## Shortest paths (`nx.shortest_path` on the unweighted digraph)

The model computes, like networkx's BFS, a path of minimal edge count: it
searches increasing lengths `n` for a predecessor chain from the source,
returning the first (hence shortest) hit, and `none` (networkx raises
`NodeNotFound` / `NetworkXNoPath`) when an endpoint is missing or no path
is found within the node-count bound.  The spec treats tie-breaking among
equally short paths as arbitrary, so only minimality is relied upon. -/

def IsWalk (g : Graph) (l : List String) : Prop :=
  l.Chain' (fun a b => g.hasEdge a b = true)

/-- A directed walk from `src` to `dst` (consecutive edges, fixed
endpoints). -/
def WalkFrom (g : Graph) (src dst : String) (l : List String) : Prop :=
  IsWalk g l ∧ l.head? = some src ∧ l.getLast? = some dst

/-- All nodes one edge beyond a layer. -/
def Graph.frontierNext (g : Graph) (layer : List String) : List String :=
  (layer.flatMap (fun u => g.succList u)).dedup

/-- Endpoints of walks of length exactly `n` from `src`. -/
def Graph.frontier (g : Graph) (src : String) : Nat → List String
  | 0 => [src]
  | Nat.succ n => g.frontierNext (g.frontier src n)

def findPred (g : Graph) (layer : List String) (dst : String) : Option String :=
  layer.find? (fun u => g.hasEdge u dst)

def buildPath (g : Graph) (src : String) : Nat → String → Option (List String)
  | 0, dst => if dst = src then some [src] else none
  | Nat.succ n, dst =>
      (findPred g (g.frontier src n) dst).bind
        (fun u => (buildPath g src n u).map (fun p => p ++ [dst]))

def spSearch (g : Graph) (src dst : String) : Nat → Nat → Option (List String)
  | _, 0 => none
  | n, Nat.succ b =>
      match buildPath g src n dst with
      | some p => some p
      | none => spSearch g src dst (n + 1) b

def shortest_path (g : Graph) (src dst : String) : Option (List String) :=
  if g.hasNode src = true ∧ g.hasNode dst = true then
    spSearch g src dst 0 (g.nodes.length + 1)
  else none

theorem buildPath_walk (g : Graph) (src : String) (n : Nat) (dst : String)
    (p : List String) (h : buildPath g src n dst = some p) :
    WalkFrom g src dst p ∧ p.length = n + 1 := by
  induction n generalizing dst p with
  | zero =>
      rw [buildPath] at h
      split_ifs at h with hd
      · subst hd
        cases h
        exact ⟨⟨List.chain'_singleton dst, rfl, rfl⟩, rfl⟩
  | succ n ih =>
      rw [buildPath] at h
      cases hfp : findPred g (g.frontier src n) dst with
      | none =>
          rw [hfp, Option.none_bind] at h
          exact Option.noConfusion h
      | some u =>
          rw [hfp, Option.some_bind] at h
          cases hbp : buildPath g src n u with
          | none =>
              rw [hbp, Option.map_none'] at h
              exact Option.noConfusion h
          | some p' =>
              rw [hbp, Option.map_some'] at h
              cases h
              obtain ⟨⟨hw, hh, hl⟩, hlen⟩ := ih u p' hbp
              have hedge : g.hasEdge u dst = true := by
                have := List.find?_some hfp
                simpa using this
              refine ⟨⟨?_, ?_, List.getLast?_concat p'⟩, by simp [hlen]⟩
              · rw [IsWalk, List.chain'_append]
                refine ⟨hw, List.chain'_singleton dst, ?_⟩
                intro x hx y hy
                simp only [List.head?_cons, Option.mem_def, Option.some.injEq] at hy
                subst hy
                rw [hl] at hx
                simp only [Option.mem_def, Option.some.injEq] at hx
                subst hx
                exact hedge
              · rw [List.head?_append, hh]
                rfl
  
theorem buildPath_isSome_iff (g : Graph) (src : String) (n : Nat) (dst : String) :
    (buildPath g src n dst).isSome = true ↔ dst ∈ g.frontier src n := by
  induction n generalizing dst with
  | zero =>
      rw [buildPath]
      split_ifs with hd
      · simp [hd, Graph.frontier]
      · simp [Graph.frontier, hd]
  | succ n ih =>
      rw [buildPath]
      constructor
      · intro h
        cases hfp : findPred g (g.frontier src n) dst with
        | none =>
            rw [hfp, Option.none_bind] at h
            exact Bool.noConfusion h
        | some u =>
            have hmem : u ∈ g.frontier src n := List.mem_of_find?_eq_some hfp
            have hedge : g.hasEdge u dst = true := by
              have := List.find?_some hfp
              simpa using this
            simp only [Graph.frontier, Graph.frontierNext, List.mem_dedup,
              List.mem_flatMap]
            exact ⟨u, hmem, (mem_succList g u dst).mpr hedge⟩
      · intro h
        simp only [Graph.frontier, Graph.frontierNext, List.mem_dedup,
          List.mem_flatMap] at h
        obtain ⟨u, hu, hv⟩ := h
        have hfind : (findPred g (g.frontier src n) dst).isSome = true := by
          rw [findPred, List.find?_isSome]
          exact ⟨u, hu, (mem_succList g u dst).mp hv⟩
        cases hfp : findPred g (g.frontier src n) dst with
        | none => rw [hfp] at hfind; exact Bool.noConfusion hfind
        | some u1 =>
            have hmem : u1 ∈ g.frontier src n := List.mem_of_find?_eq_some hfp
            have hsome : (buildPath g src n u1).isSome = true := (ih u1).mpr hmem
            cases hbp : buildPath g src n u1 with
            | none => rw [hbp] at hsome; exact Bool.noConfusion hsome
            | some p =>
                simp only [Option.some_bind, hbp, Option.map_some',
                  Option.isSome_some]

theorem spSearch_spec (g : Graph) (src dst : String) (n b : Nat) (p : List String)
    (h : spSearch g src dst n b = some p) :
    ∃ k, n ≤ k ∧ buildPath g src k dst = some p
      ∧ ∀ m, n ≤ m → m < k → buildPath g src m dst = none := by
  induction b generalizing n with
  | zero => exact Option.noConfusion h
  | succ b ih =>
      rw [spSearch] at h
      cases hbp : buildPath g src n dst with
      | some p2 =>
          rw [hbp] at h
          cases h
          exact ⟨n, Nat.le_refl n, hbp,
            fun m h1 h2 => absurd h1 (Nat.not_le_of_lt h2)⟩
      | none =>
          rw [hbp] at h
          obtain ⟨k, hk1, hk2, hk3⟩ := ih (n + 1) h
          refine ⟨k, Nat.le_of_succ_le hk1, hk2, ?_⟩
          intro m h1 h2
          rcases Nat.eq_or_lt_of_le h1 with h1 | h1
          · exact h1 ▸ hbp
          · exact hk3 m h1 h2

theorem exists_dup_decomp {l : List String} (h : ¬ l.Nodup) :
    ∃ (x : String) (l1 l2 l3 : List String), l = l1 ++ x :: (l2 ++ x :: l3) := by
  induction l with
  | nil => exact absurd List.nodup_nil h
  | cons a t ih =>
      by_cases ha : a ∈ t
      · obtain ⟨l2, l3, ht⟩ := List.append_of_mem ha
        exact ⟨a, [], l2, l3, by rw [ht]; rfl⟩
      · have hnt : ¬ t.Nodup := fun hn => h (List.nodup_cons.mpr ⟨ha, hn⟩)
        obtain ⟨x, l1, l2, l3, ht⟩ := ih hnt
        exact ⟨x, a :: l1, l2, l3, by rw [ht]; rfl⟩

theorem walk_shorten (g : Graph) (src dst : String) (l : List String)
    (h : WalkFrom g src dst l) (hnd : ¬ l.Nodup) :
    ∃ l2, WalkFrom g src dst l2 ∧ l2.length < l.length := by
  obtain ⟨hw, hh, hl⟩ := h
  obtain ⟨x, l1, l2, l3, rfl⟩ := exists_dup_decomp hnd
  refine ⟨l1 ++ x :: l3, ⟨?_, ?_, ?_⟩, ?_⟩
  · have hreassoc : l1 ++ x :: (l2 ++ x :: l3)
        = (l1 ++ x :: l2) ++ ((x :: l3) : List String) := by
      simp
    rw [IsWalk, hreassoc, List.chain'_append] at hw
    obtain ⟨hw1, hw2, hw3⟩ := hw
    rw [List.chain'_append] at hw1
    obtain ⟨hw1a, _, hw1c⟩ := hw1
    rw [IsWalk, List.chain'_append]
    refine ⟨hw1a, hw2, ?_⟩
    intro a haa b hbb
    simp only [List.head?_cons, Option.mem_def, Option.some.injEq] at hbb
    subst hbb
    apply hw1c a haa
    rfl
  · rw [List.head?_append] at hh ⊢
    cases hl1 : l1.head? with
    | none => rw [hl1] at hh; simpa using hh
    | some s => rw [hl1] at hh; simpa using hh
  · rw [List.getLast?_append] at hl ⊢
    have h2 : ((x :: (l2 ++ x :: l3)) : List String).getLast?
        = ((x :: l3) : List String).getLast? := by
      have hshape : ((x :: (l2 ++ x :: l3)) : List String)
          = (x :: l2) ++ ((x :: l3) : List String) := by
        simp
      obtain ⟨w, hw2⟩ : ∃ w, ((x :: l3) : List String).getLast? = some w := by
        cases hgl : ((x :: l3) : List String).getLast? with
        | none =>
            exact absurd (List.getLast?_eq_none_iff.mp hgl) (by simp)
        | some w => exact ⟨w, rfl⟩
      rw [hshape, List.getLast?_append, hw2]
      rfl
    rw [h2] at hl
    exact hl
  · simp only [List.length_append, List.length_cons]
    omega


theorem mem_frontier_iff (g : Graph) (src : String) (n : Nat) (v : String) :
    v ∈ g.frontier src n
      ↔ ∃ l, WalkFrom g src v l ∧ l.length = n + 1 := by
  induction n generalizing v with
  | zero =>
      simp only [Graph.frontier, List.mem_singleton]
      constructor
      · rintro rfl
        exact ⟨[v], ⟨List.chain'_singleton v, rfl, rfl⟩, rfl⟩
      · rintro ⟨l, ⟨hw, hh, hl⟩, hlen⟩
        cases l with
        | nil => exact Option.noConfusion hh
        | cons a t =>
            cases t with
            | nil =>
                simp only [List.head?_cons, Option.some.injEq] at hh
                simp only [List.getLast?_singleton, Option.some.injEq] at hl
                rw [← hl, hh]
            | cons b t2 => simp at hlen
  | succ n ih =>
      simp only [Graph.frontier, Graph.frontierNext, List.mem_dedup,
        List.mem_flatMap]
      constructor
      · rintro ⟨u, hu, hv⟩
        obtain ⟨l, ⟨hw, hh, hl⟩, hlen⟩ := (ih u).mp hu
        refine ⟨l ++ [v], ⟨?_, ?_, List.getLast?_concat l⟩, by simp [hlen]⟩
        · rw [IsWalk, List.chain'_append]
          refine ⟨hw, List.chain'_singleton v, ?_⟩
          intro x hx y hy
          simp only [List.head?_cons, Option.mem_def, Option.some.injEq] at hy
          subst hy
          rw [hl] at hx
          simp only [Option.mem_def, Option.some.injEq] at hx
          subst hx
          exact (mem_succList g u v).mp hv
        · rw [List.head?_append, hh]
          rfl
      · rintro ⟨l, ⟨hw, hh, hl⟩, hlen⟩
        have hlne : l ≠ [] := by
          intro h
          rw [h] at hlen
          simp at hlen
        have hdecomp : l.dropLast ++ [v] = l := by
          apply List.dropLast_append_getLast?
          exact hl
        have hdne : l.dropLast ≠ [] := by
          intro h
          have := congrArg List.length hdecomp
          rw [h] at this
          simp only [List.nil_append, List.length_singleton] at this
          rw [← this] at hlen
          omega
        have hu : ∃ u, l.dropLast.getLast? = some u := by
          cases hgl : l.dropLast.getLast? with
          | none => exact absurd (List.getLast?_eq_none_iff.mp hgl) hdne
          | some u => exact ⟨u, rfl⟩
        obtain ⟨u, hu⟩ := hu
        have hwalk : WalkFrom g src u l.dropLast ∧ l.dropLast.length = n + 1 := by
          rw [← hdecomp] at hw hh
          rw [IsWalk, List.chain'_append] at hw
          constructor
          · refine ⟨hw.1, ?_, hu⟩
            rw [List.head?_append] at hh
            cases hhd : l.dropLast.head? with
            | none => exact absurd (List.head?_eq_none_iff.mp hhd) hdne
            | some s =>
                rw [hhd] at hh
                simpa using hh
          · have := congrArg List.length hdecomp
            simp only [List.length_append, List.length_singleton] at this
            omega
        refine ⟨u, (ih u).mpr ⟨l.dropLast, hwalk.1, hwalk.2⟩, ?_⟩
        rw [mem_succList]
        rw [← hdecomp, IsWalk, List.chain'_append] at hw
        exact hw.2.2 u (by rw [hu]; rfl) v rfl

/-- Soundness and minimality of the modelled `nx.shortest_path`: a returned
path is a duplicate-free directed walk from source to target whose edge
count is minimal among all directed walks (hence among all paths). -/
theorem shortest_path_spec (g : Graph) (src dst : String) (p : List String)
    (h : shortest_path g src dst = some p) :
    WalkFrom g src dst p ∧ p.Nodup
      ∧ ∀ q, WalkFrom g src dst q → p.length ≤ q.length := by
  rw [shortest_path] at h
  split_ifs at h with hn
  obtain ⟨k, _, hk2, hk3⟩ := spSearch_spec g src dst 0 (g.nodes.length + 1) p h
  obtain ⟨hwalk, hlen⟩ := buildPath_walk g src k dst p hk2
  have hmin : ∀ q, WalkFrom g src dst q → p.length ≤ q.length := by
    intro q hq
    have hqne : q ≠ [] := by
      intro hx
      rw [hx] at hq
      exact Option.noConfusion hq.2.1
    have hqlen : 1 ≤ q.length := by
      cases q with
      | nil => exact absurd rfl hqne
      | cons a t => simp
    by_contra hlt
    push_neg at hlt
    have hm : dst ∈ g.frontier src (q.length - 1) := by
      rw [mem_frontier_iff]
      exact ⟨q, hq, by omega⟩
    have hbs : (buildPath g src (q.length - 1) dst).isSome = true :=
      (buildPath_isSome_iff g src (q.length - 1) dst).mpr hm
    have hnone : buildPath g src (q.length - 1) dst = none :=
      hk3 (q.length - 1) (Nat.zero_le _) (by omega)
    rw [hnone] at hbs
    exact Bool.noConfusion hbs
  refine ⟨hwalk, ?_, hmin⟩
  by_contra hnd
  obtain ⟨l2, hl2, hl2len⟩ := walk_shorten g src dst p hwalk hnd
  exact absurd (hmin l2 hl2) (by omega)

/-! ## Graph views (`nx.descendants_at_distance` + `nx.induced_subgraph`) -/

/-- One layer step of `nx.descendants_at_distance`: the next layer is every
unvisited successor of the current layer. -/
def datdStep (g : Graph) : List String × List String → List String × List String
  | (current, visited) =>
      let nl := ((current.flatMap (fun u => g.succList u)).filter
        (fun v => decide (¬ v ∈ visited))).dedup
      (nl, visited ++ nl)

def datdAux (g : Graph) : Nat → List String × List String → List String × List String
  | 0, s => s
  | Nat.succ n, s => datdAux g n (datdStep g s)

/-- `nx.descendants_at_distance(G, source, distance)`: the set of nodes at
shortest-path distance exactly `distance` from `source`. -/
def descendants_at_distance (g : Graph) (src : String) (d : Nat) : List String :=
  (datdAux g d ([src], [src])).1

/-- `nx.induced_subgraph(G, nodes)`: nodes of `G` in the set (attributes
kept) and the edges among them. -/
def inducedSubgraph (g : Graph) (s : List String) : Graph :=
  ⟨g.nodes.filter (fun x => decide (x.1 ∈ s)),
   g.edges.filter (fun e => decide (e.1 ∈ s) && decide (e.2 ∈ s))⟩

/-- `ZimExplorerContext.categories_graph`. -/
def categoriesGraph (g : Graph) : Graph :=
  inducedSubgraph g (descendants_at_distance g CATEGORIES_NODE 1)

/-- `ZimExplorerContext.all_articles_graph`. -/
def allArticlesGraph (g : Graph) : Graph :=
  inducedSubgraph g (descendants_at_distance g ARTICLES_NODE 1)

/-- `ZimExplorerContext.category_articles_graph` (`set.union` of the
distance-1 and distance-2 sets; list concatenation is union here because
`inducedSubgraph` only tests membership). -/
def categoryArticlesGraph (g : Graph) : Graph :=
  inducedSubgraph g
    (descendants_at_distance g CATEGORIES_NODE 1
      ++ descendants_at_distance g CATEGORIES_NODE 2)

/-- `ZimExplorerContext.search_graph`. -/
def searchGraph (g : Graph) (exclude_related : Bool) : Graph :=
  if exclude_related then categoryArticlesGraph g else allArticlesGraph g

/-! ## Rendering (`__format_article_link`, `__format_category_breadcrumbs`)

`click.style` only wraps text in ANSI color codes; the spec scopes
text/color formatting out, so styling is modelled as the identity and the
separator `click.style(" / ", dim=True)` as the plain string `" / "`. -/

/-- `__format_article_link`: looks the node up in the FULL graph's node
attribute mapping (`None` when absent — then `.get("title")` raises
`AttributeError`, modelled as `none`); renders `id (title)` when `title` is
truthy (present and nonempty), the identifier alone otherwise. -/
def format_article_link (g : Graph) (node_id : String) : Option String :=
  match g.attrsOf node_id with
  | none => none
  | some nd =>
      let node_title := nd.title.getD ""
      if node_title ≠ "" then some (node_id ++ " (" ++ node_title ++ ")")
      else some node_id

def breadcrumbSeparator : String := " / "

/-- The segment list `[*breadcrumbs[:-1], format_article_link(breadcrumbs[-1])]`
that `__format_category_breadcrumbs` joins with the separator
(`breadcrumbs` is never empty where the source calls this: it is a
`shortest_path` result). -/
def breadcrumbParts (g : Graph) (breadcrumbs : List String) : Option (List String) :=
  (format_article_link g (breadcrumbs.getLastD "")).map
    (fun lastLink => breadcrumbs.dropLast ++ [lastLink])

/-- `__format_category_breadcrumbs`. -/
def format_category_breadcrumbs (g : Graph) (breadcrumbs : List String) :
    Option String :=
  (breadcrumbParts g breadcrumbs).map
    (fun parts => String.intercalate breadcrumbSeparator parts)

/-! ## Sorted-neighbor BFS (`nx.bfs_successors(..., sort_neighbors=sorted)`)
and `nx.descendants` -/

def insertSorted (x : String) : List String → List String
  | [] => [x]
  | y :: rest => if x < y then x :: y :: rest else y :: insertSorted x rest

/-- Python `sorted` on a list of strings (ascending; all call sites sort
duplicate-free lists, so stability is irrelevant). -/
def sortStrings (l : List String) : List String :=
  l.foldr insertSorted []

def bfsReachAux (g : Graph) : Nat → List String → List String → List String
  | 0, _, visited => visited
  | Nat.succ fuel, queue, visited =>
      match queue with
      | [] => visited
      | u :: rest =>
          let children := ((g.succList u).filter
            (fun v => decide (¬ v ∈ visited))).dedup
          bfsReachAux g fuel (rest ++ children) (visited ++ children)

/-- `nx.descendants(G, source)`: every node reachable from `source`,
excluding `source` itself. -/
def descendants (g : Graph) (src : String) : List String :=
  (bfsReachAux g (g.nodes.length + 1) [src] [src]).filter
    (fun v => decide (¬ v = src))

def bfsSuccAux (g : Graph) : Nat → List String → List String →
    List (String × List String)
  | 0, _, _ => []
  | Nat.succ fuel, queue, visited =>
      match queue with
      | [] => []
      | u :: rest =>
          let children := sortStrings ((g.succList u).filter
            (fun v => decide (¬ v ∈ visited)))
          let tail := bfsSuccAux g fuel (rest ++ children) (visited ++ children)
          if children.isEmpty then tail else (u, children) :: tail

/-- `nx.bfs_successors(G, source, sort_neighbors=sorted)`: BFS from the
source, yielding `(parent, newly-discovered-children)` pairs; the source is
always yielded (even with no children), later parents only when they
discover at least one child. -/
def bfs_successors (g : Graph) (src : String) : List (String × List String) :=
  let children := sortStrings ((g.succList src).filter
    (fun v => decide (¬ v ∈ [src])))
  (src, children) :: bfsSuccAux g (g.nodes.length + 1) children (src :: children)

/-! ## Grouped listing (`format_nodes_list`) -/

def renderLinks (g : Graph) : List String → Except String (List String)
  | [] => Except.ok []
  | n :: rest =>
      match format_article_link g n with
      | none => Except.error "AttributeError"
      | some s =>
          match renderLinks g rest with
          | Except.error e => Except.error e
          | Except.ok tail => Except.ok ((" * " ++ s) :: tail)

def emitGroups (G : Graph) (main_node_id : String) :
    List (String × List String) → Except String (List String)
  | [] => Except.ok []
  | (node, succs) :: rest =>
      if (categoriesGraph G).hasNode node then
        match shortest_path (categoriesGraph G) main_node_id node with
        | none => Except.error "nx.shortest_path raised"
        | some bc =>
            match format_category_breadcrumbs G bc with
            | none => Except.error "AttributeError"
            | some heading =>
                match renderLinks G succs with
                | Except.error e => Except.error e
                | Except.ok items =>
                    match emitGroups G main_node_id rest with
                    | Except.error e => Except.error e
                    | Except.ok tail =>
                        Except.ok (((heading ++ ":") :: items ++ [""]) ++ tail)
      else emitGroups G main_node_id rest

/-- `format_nodes_list(main_node_id)`: induced subgraph of the search view
on `{main} ∪ descendants(main)`, sorted-neighbor BFS over it, a breadcrumb
heading plus successor group for every visited node that belongs to the
categories graph, then the uncategorized remainder sorted by identifier.
Exceptions raised mid-iteration (`nx.shortest_path` on a missing source or
with no path, or a failed node lookup) abort the listing
(`Except.error`). -/
def format_nodes_list (G : Graph) (exclude_related : Bool)
    (main_node_id : String) : Except String (List String) :=
  if (searchGraph G exclude_related).hasNode main_node_id = true then
    match emitGroups G main_node_id
        (bfs_successors
          (inducedSubgraph (searchGraph G exclude_related)
            (main_node_id ::
              descendants (searchGraph G exclude_related) main_node_id))
          main_node_id) with
    | Except.error e => Except.error e
    | Except.ok lines1 =>
        match renderLinks G (sortStrings
            ((searchGraph G exclude_related).nodeIds.filter
              (fun n => decide (¬ n ∈
                (inducedSubgraph (searchGraph G exclude_related)
                  (main_node_id ::
                    descendants (searchGraph G exclude_related)
                      main_node_id)).nodeIds)))) with
        | Except.error e => Except.error e
        | Except.ok lines2 =>
            Except.ok (lines1 ++ ["Uncategorized articles:"] ++ lines2)
  else Except.error "nx source not in G"

/-! ## Claim C8 -/

set_option maxRecDepth 10000

/-- C8 (amended): whenever grouped listing computes a breadcrumb — i.e.
`nx.shortest_path(categories_graph, main, node)` returns `bc` — `bc` is a
duplicate-free directed path from the root anchor to the node within the
categories-only graph of minimal edge count among all directed walks; the
rendering consists of exactly `bc.length` separator-joined segments: each
element but the last verbatim, the last replaced by its
identifier-with-title link.  For a node two category-hops from the root the
rendering therefore has THREE segments (two separator occurrences), not the
two the original claim states. -/
theorem breadcrumb_shortest_path (G : Graph) (root node : String)
    (bc : List String)
    (h : shortest_path (categoriesGraph G) root node = some bc) :
    (WalkFrom (categoriesGraph G) root node bc ∧ bc.Nodup ∧
      ∀ q, WalkFrom (categoriesGraph G) root node q → bc.length ≤ q.length) ∧
    (∀ parts, breadcrumbParts G bc = some parts →
      parts.length = bc.length ∧ parts.dropLast = bc.dropLast ∧
      (bc.length = 3 → parts.length = 3 ∧ parts.length ≠ 2)) := by
  obtain ⟨hwalk, hnd, hmin⟩ := shortest_path_spec _ _ _ _ h
  refine ⟨⟨hwalk, hnd, hmin⟩, ?_⟩
  intro parts hp
  have hbcne : bc ≠ [] := by
    intro hx
    rw [hx] at hwalk
    exact Option.noConfusion hwalk.2.1
  have hlen1 : 1 ≤ bc.length := by
    cases bc with
    | nil => exact absurd rfl hbcne
    | cons a t => simp
  rw [breadcrumbParts] at hp
  cases hfl : format_article_link G (bc.getLastD "") with
  | none =>
      rw [hfl, Option.map_none'] at hp
      exact Option.noConfusion hp
  | some lastLink =>
      rw [hfl, Option.map_some'] at hp
      cases hp
      have hplen : (bc.dropLast ++ [lastLink]).length = bc.length := by
        simp only [List.length_append, List.length_dropLast,
          List.length_singleton]
        omega
      refine ⟨hplen, ?_, ?_⟩
      · exact List.dropLast_concat
      · intro h3
        rw [hplen, h3]
        exact ⟨rfl, by omega⟩

def wCatR : ZimEntry := ⟨"Category:R", "Cat R", false, "", "text/html", ["Category:A"]⟩

def wCatA : ZimEntry := ⟨"Category:A", "Cat A", false, "", "text/html", ["Category:B"]⟩

def wCatB : ZimEntry := ⟨"Category:B", "Cat B", false, "", "text/html", []⟩

/-- A full graph whose categories-only view is the two-hop chain
`Category:R → Category:A → Category:B`. -/
def wG8 : Graph := seqGraph [wCatR, wCatA, wCatB]

theorem wG8_shortest :
    shortest_path (categoriesGraph wG8) "Category:R" "Category:B"
      = some ["Category:R", "Category:A", "Category:B"] := by
  decide

/-- C8 counterexample: for the category node `Category:B`, two
category-hops from the root `Category:R`, the breadcrumb rendering has
three separator-joined segments, not the two the claim states. -/
theorem breadcrumb_two_hop_counterexample :
    shortest_path (categoriesGraph wG8) "Category:R" "Category:B"
        = some ["Category:R", "Category:A", "Category:B"] ∧
      (breadcrumbParts wG8 ["Category:R", "Category:A", "Category:B"]).map
          (fun parts => parts.length) = some 3 ∧
      ¬ (breadcrumbParts wG8 ["Category:R", "Category:A", "Category:B"]).map
          (fun parts => parts.length) = some 2 :=
  ⟨wG8_shortest, by decide, by decide⟩

theorem breadcrumb_shortest_path_witness :
    shortest_path (categoriesGraph wG8) "Category:R" "Category:B"
        = some ["Category:R", "Category:A", "Category:B"] ∧
      ((WalkFrom (categoriesGraph wG8) "Category:R" "Category:B"
          ["Category:R", "Category:A", "Category:B"] ∧
        List.Nodup ["Category:R", "Category:A", "Category:B"] ∧
        ∀ q, WalkFrom (categoriesGraph wG8) "Category:R" "Category:B" q →
          List.length ["Category:R", "Category:A", "Category:B"] ≤ q.length) ∧
      (∀ parts,
          breadcrumbParts wG8 ["Category:R", "Category:A", "Category:B"]
            = some parts →
          parts.length
              = List.length ["Category:R", "Category:A", "Category:B"] ∧
          parts.dropLast
              = List.dropLast ["Category:R", "Category:A", "Category:B"] ∧
          (List.length ["Category:R", "Category:A", "Category:B"] = 3 →
            parts.length = 3 ∧ parts.length ≠ 2))) :=
  ⟨wG8_shortest,
    breadcrumb_shortest_path wG8 "Category:R" "Category:B" _ wG8_shortest⟩

/-! ## Claim C9 -/

theorem foldl_combine2_isSome {α : Type} (f : α → Option NodeAttrs) (l : List α)
    (z : Option NodeAttrs)
    (h : (∃ x ∈ l, (f x).isSome = true) ∨ z.isSome = true) :
    (l.foldl (fun acc x => combine2 acc (f x)) z).isSome = true := by
  induction l generalizing z with
  | nil =>
      rcases h with ⟨x, hx, _⟩ | h
      · exact absurd hx (List.not_mem_nil x)
      · exact h
  | cons x t ih =>
      rw [List.foldl_cons]
      rcases h with ⟨y, hy, hfy⟩ | hz
      · rcases List.mem_cons.mp hy with rfl | hy2
        · exact ih _ (Or.inr (combine2_isSome_right _ _ hfy))
        · exact ih _ (Or.inl ⟨y, hy2, hfy⟩)
      · exact ih _ (Or.inr (combine2_isSome_left _ _ hz))

theorem entryAttrDelta_path_isSome (e : ZimEntry)
    (h : e.is_redirect = true ∨ (e.is_redirect = false ∧ e.mimetype = "text/html")) :
    (entryAttrDelta e e.path).isSome = true := by
  rw [entryAttrDelta]
  rcases h with h | ⟨h1, h2⟩
  · rw [if_pos h, if_pos rfl]
    rfl
  · rw [if_neg (by rw [h1]; exact Bool.false_ne_true),
      if_neg (by rw [h2]; exact fun hx => hx rfl), if_pos rfl]
    rfl

theorem entryAttrDelta_redirect_target_isSome (e : ZimEntry)
    (h : e.is_redirect = true) :
    (entryAttrDelta e e.redirect_path).isSome = true := by
  rw [entryAttrDelta, if_pos h]
  split_ifs <;> simp_all

theorem entryAttrDelta_html_other_isSome (e : ZimEntry) (q : String)
    (h1 : e.is_redirect = false) (h2 : e.mimetype = "text/html")
    (h : q = ARTICLES_NODE
      ∨ (q = CATEGORIES_NODE ∧ strStartsWith e.path "Category:" = true)
      ∨ q ∈ entryLinkTargets e) :
    (entryAttrDelta e q).isSome = true := by
  rw [entryAttrDelta,
    if_neg (by rw [h1]; exact Bool.false_ne_true),
    if_neg (by rw [h2]; exact fun hx => hx rfl)]
  split_ifs with hp hcond
  all_goals try rfl
  all_goals exact absurd h hcond

theorem entryEdges_endpoint_delta (e : ZimEntry) (u v : String)
    (h : (u, v) ∈ entryEdges e) :
    (entryAttrDelta e u).isSome = true ∧ (entryAttrDelta e v).isSome = true := by
  rw [entryEdges] at h
  split_ifs at h with h1 h2
  · simp only [List.mem_singleton, Prod.mk.injEq] at h
    obtain ⟨rfl, rfl⟩ := h
    exact ⟨entryAttrDelta_path_isSome e (Or.inl h1),
      entryAttrDelta_redirect_target_isSome e h1⟩
  · exact absurd h (List.not_mem_nil _)
  all_goals
    have hr : e.is_redirect = false := by
      cases hb : e.is_redirect
      · rfl
      · exact absurd hb h1
  all_goals have hm : e.mimetype = "text/html" := not_ne_iff.mp h2
  all_goals rcases List.mem_cons.mp h with hh | hh
  all_goals try (
    rw [Prod.mk.injEq] at hh
    obtain ⟨rfl, rfl⟩ := hh
    exact ⟨entryAttrDelta_html_other_isSome e _ hr hm (Or.inl rfl),
      entryAttrDelta_path_isSome e (Or.inr ⟨hr, hm⟩)⟩)
  all_goals rcases List.mem_append.mp hh with hh2 | hh2
  all_goals try exact absurd hh2 (List.not_mem_nil _)
  all_goals try (
    rcases List.mem_map.mp hh2 with ⟨t, ht, hteq⟩
    rw [Prod.mk.injEq] at hteq
    obtain ⟨rfl, rfl⟩ := hteq
    exact ⟨entryAttrDelta_path_isSome e (Or.inr ⟨hr, hm⟩),
      entryAttrDelta_html_other_isSome e _ hr hm (Or.inr (Or.inr ht))⟩)
  all_goals (
    simp only [List.mem_singleton, Prod.mk.injEq] at hh2
    obtain ⟨rfl, rfl⟩ := hh2)
  case pos =>
    rename_i hcat
    exact ⟨entryAttrDelta_html_other_isSome e _ hr hm (Or.inr (Or.inl ⟨rfl, hcat⟩)),
      entryAttrDelta_path_isSome e (Or.inr ⟨hr, hm⟩)⟩

/-- Node lookups that succeed never raise in `__format_article_link`, and a
node with no (or a falsy) `title` renders as the identifier alone. -/
theorem format_article_link_isSome (g : Graph) (nid : String)
    (h : g.hasNode nid = true) :
    (format_article_link g nid).isSome = true := by
  rw [Graph.hasNode] at h
  obtain ⟨a, ha⟩ := Option.isSome_iff_exists.mp h
  simp only [format_article_link, ha]
  split <;> rfl

/-- C9: (a) in the merged full graph every edge endpoint — in particular
every link target that was never classified as an entry — IS a node, so
every identifier reachable through view or query access can be looked up;
(b) for any graph, looking up an existing node with no usable `title`
metadata is not an error: `__format_article_link` returns the rendering of
the identifier alone instead of raising. -/
theorem missing_metadata_render (arch : List ZimEntry) (c : Nat)
    (gs' : List Graph) (hperm : gs'.Perm (buildChunks arch c)) :
    (∀ u v, (composeAll gs').hasEdge u v = true →
        (composeAll gs').hasNode u = true ∧ (composeAll gs').hasNode v = true) ∧
    (∀ (g : Graph) (nid : String), g.hasNode nid = true →
        (format_article_link g nid).isSome = true ∧
        (∀ a, g.attrsOf nid = some a → a.title.getD "" = "" →
          format_article_link g nid = some nid)) := by
  constructor
  · intro u v hedge
    rw [hasEdge_composeAll, List.any_eq_true] at hedge
    obtain ⟨g0, hg0, hgv⟩ := hedge
    rcases List.mem_map.mp (hperm.mem_iff.mp hg0) with ⟨ch, hch, rfl⟩
    rw [chunk_edges, List.any_eq_true] at hgv
    obtain ⟨e, he, hev⟩ := hgv
    simp only [decide_eq_true_eq] at hev
    obtain ⟨hu, hv⟩ := entryEdges_endpoint_delta e u v hev
    have hwf : ∀ g ∈ gs', g.WF := by
      intro g hg
      rcases List.mem_map.mp (hperm.mem_iff.mp hg) with ⟨ch2, _, rfl⟩
      exact WF_zim_entries_to_graph ch2
    have hnode : ∀ q, (entryAttrDelta e q).isSome = true →
        (composeAll gs').hasNode q = true := by
      intro q hq
      rw [Graph.hasNode, attrsOf_composeAll gs' hwf q]
      apply foldl_combine2_isSome
      left
      refine ⟨zim_entries_to_graph ch, hperm.mem_iff.mpr (List.mem_map_of_mem _ hch), ?_⟩
      rw [chunk_attrs]
      apply combine2_isSome_right
      rw [listDelta]
      exact foldl_combine2_isSome _ _ _ (Or.inl ⟨e, he, hq⟩)
    exact ⟨hnode u hu, hnode v hv⟩
  · intro g nid h
    refine ⟨format_article_link_isSome g nid h, ?_⟩
    intro a ha htitle
    simp only [format_article_link, ha, htitle]
    rw [if_neg (by simp)]

theorem missing_metadata_render_witness :
    (buildChunks wArch 2).Perm (buildChunks wArch 2) ∧
      ((∀ u v, (composeAll (buildChunks wArch 2)).hasEdge u v = true →
          (composeAll (buildChunks wArch 2)).hasNode u = true ∧
          (composeAll (buildChunks wArch 2)).hasNode v = true) ∧
       (∀ (g : Graph) (nid : String), g.hasNode nid = true →
          (format_article_link g nid).isSome = true ∧
          (∀ a, g.attrsOf nid = some a → a.title.getD "" = "" →
            format_article_link g nid = some nid))) :=
  ⟨List.Perm.refl _,
    missing_metadata_render wArch 2 (buildChunks wArch 2) (List.Perm.refl _)⟩

/-! ## Claim C10 -/

theorem findA_filter (ns : List (String × NodeAttrs)) (s : List String) (p : String) :
    findA (ns.filter (fun x => decide (x.1 ∈ s))) p
      = if p ∈ s then findA ns p else none := by
  induction ns with
  | nil => simp [findA]
  | cons x rest ih =>
      obtain ⟨r, b⟩ := x
      by_cases hrs : r ∈ s
      · rw [show ((r, b) :: rest).filter (fun x => decide (x.1 ∈ s))
            = (r, b) :: rest.filter (fun x => decide (x.1 ∈ s)) by
          simp [List.filter_cons, hrs]]
        by_cases hrp : r = p
        · subst hrp
          rw [findA_cons_eq _ _ _ _ rfl, findA_cons_eq _ _ _ _ rfl, if_pos hrs]
        · rw [findA_cons_ne _ _ _ _ hrp, findA_cons_ne _ _ _ _ hrp]
          exact ih
      · rw [show ((r, b) :: rest).filter (fun x => decide (x.1 ∈ s))
            = rest.filter (fun x => decide (x.1 ∈ s)) by
          simp [List.filter_cons, hrs]]
        rw [ih]
        by_cases hps : p ∈ s
        · have hrp : ¬ r = p := by
            intro hx
            exact hrs (hx ▸ hps)
          rw [if_pos hps, if_pos hps, findA_cons_ne _ _ _ _ hrp]
        · rw [if_neg hps, if_neg hps]

theorem attrsOf_induced (g : Graph) (s : List String) (p : String) :
    (inducedSubgraph g s).attrsOf p = if p ∈ s then g.attrsOf p else none := by
  rw [attrsOf_eq_findA, attrsOf_eq_findA, inducedSubgraph]
  exact findA_filter g.nodes s p

theorem hasNode_induced (g : Graph) (s : List String) (p : String)
    (h : (inducedSubgraph g s).hasNode p = true) : g.hasNode p = true := by
  rw [Graph.hasNode, attrsOf_induced] at h
  rw [Graph.hasNode]
  split_ifs at h with hps
  · exact h
  · exact Bool.noConfusion h

theorem hasEdge_induced (g : Graph) (s : List String) (u v : String) :
    (inducedSubgraph g s).hasEdge u v = true
      ↔ g.hasEdge u v = true ∧ u ∈ s ∧ v ∈ s := by
  simp [inducedSubgraph, Graph.hasEdge, List.mem_filter]

theorem edgesClosed_induced (g : Graph) (s : List String) (h : g.edgesClosed) :
    (inducedSubgraph g s).edgesClosed := by
  intro e he
  have he2 : e ∈ g.edges ∧ (e.1 ∈ s ∧ e.2 ∈ s) := by
    have := List.mem_filter.mp he
    refine ⟨this.1, ?_⟩
    have h2 := this.2
    simp only [Bool.and_eq_true, decide_eq_true_eq] at h2
    exact h2
  obtain ⟨hmem, h1s, h2s⟩ := he2
  obtain ⟨hn1, hn2⟩ := h e hmem
  constructor
  · rw [Graph.hasNode, attrsOf_induced, if_pos h1s]
    exact hn1
  · rw [Graph.hasNode, attrsOf_induced, if_pos h2s]
    exact hn2

theorem hasNode_searchGraph (g : Graph) (fl : Bool) (p : String)
    (h : (searchGraph g fl).hasNode p = true) : g.hasNode p = true := by
  rw [searchGraph] at h
  split_ifs at h
  · exact hasNode_induced _ _ _ h
  · exact hasNode_induced _ _ _ h

theorem edgesClosed_searchGraph (g : Graph) (fl : Bool) (h : g.edgesClosed) :
    (searchGraph g fl).edgesClosed := by
  rw [searchGraph]
  split_ifs
  · exact edgesClosed_induced _ _ h
  · exact edgesClosed_induced _ _ h

theorem hasNode_categoriesGraph (g : Graph) (p : String)
    (h : (categoriesGraph g).hasNode p = true) : g.hasNode p = true :=
  hasNode_induced _ _ _ h

theorem hasNode_iff_mem_nodeIds (g : Graph) (p : String) :
    g.hasNode p = true ↔ p ∈ g.nodeIds := by
  rw [Graph.hasNode, Graph.attrsOf, Graph.nodeIds]
  have hiso : (Option.map (fun x => x.2)
        (List.find? (fun x => decide (x.1 = p)) g.nodes)).isSome
      = (List.find? (fun x => decide (x.1 = p)) g.nodes).isSome := by
    cases List.find? (fun x => decide (x.1 = p)) g.nodes <;> rfl
  rw [hiso, List.find?_isSome]
  constructor
  · rintro ⟨x, hx, hpx⟩
    simp only [decide_eq_true_eq] at hpx
    exact hpx ▸ List.mem_map_of_mem _ hx
  · intro h
    rcases List.mem_map.mp h with ⟨x, hx, hpx⟩
    exact ⟨x, hx, by simp [hpx]⟩

theorem mem_insertSorted (x a : String) (l : List String) :
    a ∈ insertSorted x l ↔ a = x ∨ a ∈ l := by
  induction l with
  | nil => simp [insertSorted]
  | cons y rest ih =>
      rw [insertSorted]
      split_ifs
      · simp [List.mem_cons]
      · simp only [List.mem_cons, ih]
        tauto

theorem mem_sortStrings (a : String) (l : List String) :
    a ∈ sortStrings l ↔ a ∈ l := by
  induction l with
  | nil => simp [sortStrings]
  | cons x rest ih =>
      rw [sortStrings, List.foldr_cons]
      rw [mem_insertSorted]
      simp only [List.mem_cons]
      rw [show List.foldr insertSorted [] rest = sortStrings rest from rfl]
      rw [ih]

theorem bfsSuccAux_succs (g : Graph) (fuel : Nat) (queue visited : List String)
    (nd : String × List String) (h : nd ∈ bfsSuccAux g fuel queue visited)
    (x : String) (hx : x ∈ nd.2) : ∃ u, g.hasEdge u x = true := by
  induction fuel generalizing queue visited with
  | zero => exact absurd h (List.not_mem_nil nd)
  | succ fuel ih =>
      cases queue with
      | nil =>
          rw [bfsSuccAux] at h
          exact absurd h (List.not_mem_nil nd)
      | cons u rest =>
          simp only [bfsSuccAux] at h
          split_ifs at h with hemp
          · exact ih _ _ h
          · rcases List.mem_cons.mp h with rfl | h2
            · have hx2 : x ∈ (g.succList u).filter
                  (fun v => decide (¬ v ∈ visited)) := by
                have := (mem_sortStrings x _).mp hx
                exact this
              have := (List.mem_filter.mp hx2).1
              exact ⟨u, (mem_succList g u x).mp this⟩
            · exact ih _ _ h2

theorem bfs_successors_succs (g : Graph) (src : String) (nd : String × List String)
    (h : nd ∈ bfs_successors g src) (x : String) (hx : x ∈ nd.2) :
    ∃ u, g.hasEdge u x = true := by
  simp only [bfs_successors] at h
  rcases List.mem_cons.mp h with rfl | h2
  · have hx2 : x ∈ (g.succList src).filter
        (fun v => decide (¬ v ∈ [src])) := (mem_sortStrings x _).mp hx
    have := (List.mem_filter.mp hx2).1
    exact ⟨src, (mem_succList g src x).mp this⟩
  · exact bfsSuccAux_succs g _ _ _ nd h2 x hx

theorem renderLinks_ok (g : Graph) (l : List String)
    (h : ∀ x ∈ l, g.hasNode x = true) : (renderLinks g l).isOk = true := by
  induction l with
  | nil => rfl
  | cons n rest ih =>
      rw [renderLinks]
      have hn := format_article_link_isSome g n (h n (List.mem_cons_self _ _))
      cases hfl : format_article_link g n with
      | none => rw [hfl] at hn; exact Bool.noConfusion hn
      | some s =>
          have hrest := ih (fun x hx => h x (List.mem_cons_of_mem _ hx))
          cases hr : renderLinks g rest with
          | error e => rw [hr] at hrest; exact Bool.noConfusion hrest
          | ok tail => rfl

theorem emitGroups_ok (G : Graph) (main : String)
    (groups : List (String × List String))
    (hsp : ∀ nd ∈ groups, (categoriesGraph G).hasNode nd.1 = true →
      (shortest_path (categoriesGraph G) main nd.1).isSome = true)
    (hsucc : ∀ nd ∈ groups, ∀ x ∈ nd.2, G.hasNode x = true) :
    (emitGroups G main groups).isOk = true := by
  induction groups with
  | nil => rfl
  | cons grp rest ih =>
      obtain ⟨node, succs⟩ := grp
      rw [emitGroups]
      have ihr := ih (fun nd hnd => hsp nd (List.mem_cons_of_mem _ hnd))
        (fun nd hnd => hsucc nd (List.mem_cons_of_mem _ hnd))
      by_cases hcg : (categoriesGraph G).hasNode node = true
      · rw [if_pos hcg]
        have hspsome : (shortest_path (categoriesGraph G) main node).isSome = true :=
          hsp (node, succs) (List.mem_cons_self _ _) hcg
        split
        · rename_i hshort
          rw [hshort] at hspsome
          exact Bool.noConfusion hspsome
        · rename_i bc hshort
          obtain ⟨⟨_, _, hlast⟩, _, _⟩ := shortest_path_spec _ _ _ _ hshort
          have hlastD : bc.getLastD "" = node := by
            rw [List.getLastD_eq_getLast?, hlast]
            rfl
          have hnodeG : G.hasNode node = true := hasNode_categoriesGraph G node hcg
          have hflink : (format_article_link G (bc.getLastD "")).isSome = true := by
            rw [hlastD]
            exact format_article_link_isSome G node hnodeG
          have hbp : (format_category_breadcrumbs G bc).isSome = true := by
            rw [format_category_breadcrumbs, breadcrumbParts]
            cases hfl : format_article_link G (bc.getLastD "") with
            | none => rw [hfl] at hflink; exact Bool.noConfusion hflink
            | some s => rfl
          split
          · rename_i hfcb
            rw [hfcb] at hbp
            exact Bool.noConfusion hbp
          · rename_i heading hfcb
            split
            · rename_i e hr
              have hrl := renderLinks_ok G succs
                (hsucc (node, succs) (List.mem_cons_self _ _))
              rw [hr] at hrl
              exact Bool.noConfusion hrl
            · rename_i items hr
              split
              · rename_i e he
                rw [he] at ihr
                exact Bool.noConfusion ihr
              · rfl
      · rw [if_neg hcg]
        exact ihr

def wEntryM : ZimEntry := ⟨"M", "Main", false, "", "text/html", ["Category:C"]⟩

def wEntryC10 : ZimEntry := ⟨"Category:C", "Cat C", false, "", "text/html", ["A2"]⟩

def wEntryA2 : ZimEntry := ⟨"A2", "Article", false, "", "text/html", []⟩

/-- A full graph whose main entry `M` is not a category member but reaches
the category node `Category:C`. -/
def wGerr : Graph := seqGraph [wEntryM, wEntryC10, wEntryA2]

def wEntryRtot : ZimEntry := ⟨"Category:R", "Cat R", false, "", "text/html", ["A2"]⟩

/-- A full graph whose main entry is itself a category member, satisfying
the unstated precondition. -/
def wGtot : Graph := seqGraph [wEntryRtot, wEntryA2]

/-- C10: grouped listing is total only under an unstated precondition.
(a) If, for every node the breadth-first traversal visits that belongs to
the categories-only graph, `nx.shortest_path` from the root anchor succeeds
(the root is a categories-graph node with a directed path to that member),
then `format_nodes_list` produces its listing without error.
(b) The error branch is reachable: with the main entry `M` not a direct
member of the categories sentinel, the listing aborts
(`shortest_path(categories_graph, "M", "Category:C")` raises
`NodeNotFound`). -/
theorem grouped_listing_precondition :
    (∀ (G : Graph) (fl : Bool) (main : String),
      G.edgesClosed →
      (searchGraph G fl).hasNode main = true →
      (∀ nd ∈ bfs_successors
          (inducedSubgraph (searchGraph G fl)
            (main :: descendants (searchGraph G fl) main)) main,
        (categoriesGraph G).hasNode nd.1 = true →
        (shortest_path (categoriesGraph G) main nd.1).isSome = true) →
      (format_nodes_list G fl main).isOk = true) ∧
    ((format_nodes_list wGerr false "M").isOk = false ∧
      wGerr.hasEdge CATEGORIES_NODE "M" = false) := by
  constructor
  · intro G fl main hec hmain hsp
    have hsgec : (searchGraph G fl).edgesClosed := edgesClosed_searchGraph G fl hec
    have hmcgec : (inducedSubgraph (searchGraph G fl)
        (main :: descendants (searchGraph G fl) main)).edgesClosed :=
      edgesClosed_induced _ _ hsgec
    have hsucc : ∀ nd ∈ bfs_successors
        (inducedSubgraph (searchGraph G fl)
          (main :: descendants (searchGraph G fl) main)) main,
        ∀ x ∈ nd.2, G.hasNode x = true := by
      intro nd hnd x hx
      obtain ⟨u, hedge⟩ := bfs_successors_succs _ _ nd hnd x hx
      have hmem : (u, x) ∈ (inducedSubgraph (searchGraph G fl)
          (main :: descendants (searchGraph G fl) main)).edges := by
        rw [Graph.hasEdge, decide_eq_true_eq] at hedge
        exact hedge
      have := (hmcgec (u, x) hmem).2
      exact hasNode_searchGraph G fl x (hasNode_induced _ _ _ this)
    have hemit : (emitGroups G main (bfs_successors
        (inducedSubgraph (searchGraph G fl)
          (main :: descendants (searchGraph G fl) main)) main)).isOk = true :=
      emitGroups_ok G main _ hsp hsucc
    have hunc : (renderLinks G (sortStrings
        ((searchGraph G fl).nodeIds.filter
          (fun n => decide (¬ n ∈ (inducedSubgraph (searchGraph G fl)
            (main :: descendants (searchGraph G fl) main)).nodeIds))))).isOk
        = true := by
      apply renderLinks_ok
      intro x hx
      have hx2 := (mem_sortStrings x _).mp hx
      have hx3 := (List.mem_filter.mp hx2).1
      have hx4 : (searchGraph G fl).hasNode x = true :=
        (hasNode_iff_mem_nodeIds _ _).mpr hx3
      exact hasNode_searchGraph G fl x hx4
    rw [format_nodes_list]
    rw [if_pos hmain]
    split
    · rename_i e he
      rw [he] at hemit
      exact Bool.noConfusion hemit
    · rename_i lines1 he
      split
      · rename_i e2 hr
        rw [hr] at hunc
        exact Bool.noConfusion hunc
      · rfl
  · constructor
    · decide
    · decide

theorem grouped_listing_precondition_witness :
    wGtot.edgesClosed ∧
      (searchGraph wGtot false).hasNode "Category:R" = true ∧
      (∀ nd ∈ bfs_successors
          (inducedSubgraph (searchGraph wGtot false)
            ("Category:R" :: descendants (searchGraph wGtot false) "Category:R"))
          "Category:R",
        (categoriesGraph wGtot).hasNode nd.1 = true →
        (shortest_path (categoriesGraph wGtot) "Category:R" nd.1).isSome = true) ∧
      (format_nodes_list wGtot false "Category:R").isOk = true := by
  have h1 : wGtot.edgesClosed := by
    rw [Graph.edgesClosed]
    decide
  refine ⟨h1, by decide, by decide, ?_⟩
  exact grouped_listing_precondition.1 wGtot false "Category:R" h1
    (by decide) (by decide)
